import Mathlib

/-!
# parallelDictSeek: the trie of `src/main.cpp`

A shallow embedding of `TrieNode` (insert, search, suggestionsRec,
printAutoSuggestions), of `TrieBuilder::buildTrie`, of
`WordListUpdater::onSearchTextChanged`, of the corpus and the index ranges
computed in `main`, and of the traversal and `printAutoSuggestions` of the
console program `src/vector-paralleohneGUIl.cpp`, followed by theorems about
them.

Modelling conventions.
* A `std::string` / `QString` is a `List Char`; a `QStringList` is a list of them.
  The code `c.toNat` of a character stands for the `char` value that
  `toupper` receives; the statements concern ASCII text.
* `TrieNode* children[ALPHABET_SIZE]` is a sequence of slots, each `nullptr`
  or an exclusively owned node.  The C++ type fixes the number of slots to 26;
  `TrieNode.wf` states that, and `TrieNode.new` (the constructor) satisfies it.
* In-place mutation through `pCrawl` is rendered by rebuilding the path that
  was walked.  A loop `for (int i = 0; i < ALPHABET_SIZE; i++)` over
  `children[i]` runs over the slots of the array.
* The source never checks an index before `children[index]`.  An index outside
  `0..25` is undefined behaviour in C++.  The source has no exit at that
  point: it goes on with whatever lies at that address.  The model follows a
  run up to that access and records the index (`Outcome.outOfRange`,
  `InsertRun.outOfRange`); it says nothing about what the run does from there
  on, nor about the trie after such a call.  Nothing is reported to the caller
  in the source: `insert` is `void`.
-/

namespace ParallelDictSeek

/-- `#define ALPHABET_SIZE (26)`. -/
def ALPHABET_SIZE : Nat := 26

/-- The C library `toupper` in the "C" locale, on character codes. -/
def toupper (c : Int) : Int :=
  if 97 ≤ c ∧ c ≤ 122 then c - 32 else c

/-- `#define CHAR_TO_INDEX(c) ((int)toupper(c) - (int)'A')`. -/
def CHAR_TO_INDEX (c : Char) : Int :=
  toupper (c.toNat : Int) - 65

mutual
/-- `class TrieNode`: the flag `isWordEnd` and the array `children`. -/
inductive TrieNode where
  | mk (isWordEnd : Bool) (children : Children)
/-- The array `TrieNode* children[]`, slot 0 first: `null` is a `nullptr`
slot, `node` a slot that points to an owned child. -/
inductive Children where
  | nil
  | null (rest : Children)
  | node (child : TrieNode) (rest : Children)
end

deriving instance DecidableEq for TrieNode, Children

/-- Field `isWordEnd`. -/
def TrieNode.isWordEnd : TrieNode → Bool
  | .mk e _ => e

/-- Field `children`. -/
def TrieNode.children : TrieNode → Children
  | .mk _ cs => cs

/-- Number of slots of the array. -/
def Children.size : Children → Nat
  | .nil => 0
  | .null rest => rest.size + 1
  | .node _ rest => rest.size + 1

/-- An array of `n` slots, all `nullptr`. -/
def Children.empty : Nat → Children
  | 0 => .nil
  | n + 1 => .null (Children.empty n)

/-- Reading `children[i]`: `none` for `nullptr`. -/
def Children.get : Children → Nat → Option TrieNode
  | .nil, _ => none
  | .null _, 0 => none
  | .node c _, 0 => some c
  | .null rest, i + 1 => rest.get i
  | .node _ rest, i + 1 => rest.get i

/-- Writing `children[i] = c`. -/
def Children.set : Children → Nat → TrieNode → Children
  | .nil, _, _ => .nil
  | .null rest, 0, c => .node c rest
  | .node _ rest, 0, c => .node c rest
  | .null rest, i + 1, c => .null (rest.set i c)
  | .node d rest, i + 1, c => .node d (rest.set i c)

/-- `TrieNode::TrieNode()`: `isWordEnd = false`, every slot `nullptr`. -/
def TrieNode.new : TrieNode :=
  .mk false (Children.empty ALPHABET_SIZE)

mutual
/-- Every node of the tree has exactly `ALPHABET_SIZE` slots. -/
def TrieNode.wf : TrieNode → Bool
  | .mk _ cs => cs.size == ALPHABET_SIZE && cs.wf
/-- Every child in these slots satisfies `TrieNode.wf`. -/
def Children.wf : Children → Bool
  | .nil => true
  | .null rest => rest.wf
  | .node c rest => c.wf && rest.wf
end

/-- A run of `insert`.  When `outOfRange` is `none` the call has returned and
`trie` is the trie it leaves behind.  When `outOfRange` is `some index` the run
has reached `children[index]` with `index` outside `0..25`, and `trie` is the
trie at that moment; the source goes on from there (the loop has no exit and
`isWordEnd = true` follows it), which is not modelled. -/
structure InsertRun where
  trie : TrieNode
  outOfRange : Option Int

/-- `void TrieNode::insert(const std::string& key)` (main.cpp 51-63), followed
up to its first access of `children[]` outside `0..25`, if there is one. -/
def TrieNode.insert : TrieNode → List Char → InsertRun
  | .mk _ cs, [] => ⟨.mk true cs, none⟩
  | .mk e cs, c :: rest =>
    let index := CHAR_TO_INDEX c
    if 0 ≤ index ∧ index < 26 then
      let child := (cs.get index.toNat).getD TrieNode.new
      let r := child.insert rest
      ⟨.mk e (cs.set index.toNat r.trie), r.outOfRange⟩
    else
      ⟨.mk e cs, some index⟩

/-- Outcome of a member function that returns a value: the value, or the
index outside `0..25` at which it addressed `children[]`. -/
inductive Outcome (α : Type) where
  | returns (value : α)
  | outOfRange (index : Int)
  deriving DecidableEq, Repr

/-- `bool TrieNode::search(const std::string& key)` (main.cpp 65-79). -/
def TrieNode.search : TrieNode → List Char → Outcome Bool
  | t, [] => .returns t.isWordEnd
  | t, c :: rest =>
    let index := CHAR_TO_INDEX c
    if 0 ≤ index ∧ index < 26 then
      match t.children.get index.toNat with
      | none => .returns false
      | some child => child.search rest
    else
      .outOfRange index

/-- `bool TrieNode::isLastNode()` on the array (main.cpp 81-86). -/
def Children.isLastNode : Children → Bool
  | .nil => true
  | .null rest => rest.isLastNode
  | .node _ _ => false

/-- `bool TrieNode::isLastNode()`. -/
def TrieNode.isLastNode (t : TrieNode) : Bool :=
  t.children.isLastNode

/-- `QChar('A' + i)`. -/
def QChar (i : Nat) : Char := Char.ofNat (65 + i)

mutual
/-- `void TrieNode::suggestionsRec(const QString& currPrefix, QStringList& wordList)`
(main.cpp 88-102); the updated `wordList` is returned. -/
def TrieNode.suggestionsRec : TrieNode → List Char → List (List Char) → List (List Char)
  | .mk e cs, currPrefix, wordList =>
    let wordList1 := if e then wordList ++ [currPrefix] else wordList
    if cs.isLastNode then wordList1
    else cs.suggestionsLoop 0 currPrefix wordList1
/-- The loop `for (int i = 0; i < ALPHABET_SIZE; i++)` of `suggestionsRec`,
from slot `i` on. -/
def Children.suggestionsLoop : Children → Nat → List Char → List (List Char) → List (List Char)
  | .nil, _, _, wordList => wordList
  | .null rest, i, currPrefix, wordList => rest.suggestionsLoop (i + 1) currPrefix wordList
  | .node c rest, i, currPrefix, wordList =>
    rest.suggestionsLoop (i + 1) currPrefix
      (c.suggestionsRec (currPrefix ++ [QChar i]) wordList)
end

/-- The character `QChar::toLatin1` hands to `CHAR_TO_INDEX`: the character
itself when it is Latin-1, and 0 otherwise. -/
def toLatin1 (c : Char) : Char :=
  if c.toNat ≤ 255 then c else Char.ofNat 0

/-- The walk of `printAutoSuggestions` (main.cpp 108-117): the node `pCrawl`
ends on, `none` when a slot on the way is `nullptr` (the early
`return wordList`). -/
def TrieNode.walk : TrieNode → List Char → Outcome (Option TrieNode)
  | t, [] => .returns (some t)
  | t, c :: rest =>
    let index := CHAR_TO_INDEX (toLatin1 c)
    if 0 ≤ index ∧ index < 26 then
      match t.children.get index.toNat with
      | none => .returns none
      | some child => child.walk rest
    else
      .outOfRange index

/-- `QStringList TrieNode::printAutoSuggestions(const QString& prefix)`
(main.cpp 104-132). -/
def TrieNode.printAutoSuggestions (t : TrieNode) (pfx : List Char) :
    Outcome (List (List Char)) :=
  match t.walk pfx with
  | .outOfRange index => .outOfRange index
  | .returns none => .returns []
  | .returns (some pCrawl) =>
    let isWord := pCrawl.isWordEnd == true
    let isLast := pCrawl.isLastNode
    if isWord && isLast then .returns ([] ++ [pfx])
    else if !isLast then .returns (pCrawl.suggestionsRec pfx [])
    else .returns []

/-- `void TrieBuilder::buildTrie(size_t start, size_t end)` (main.cpp 146-150)
on the words `words[start], ..., words[end - 1]`, given as a list, followed up
to the first `insert` that goes out of range. -/
def insertAll : TrieNode → List (List Char) → InsertRun
  | root, [] => ⟨root, none⟩
  | root, w :: rest =>
    match root.insert w with
    | ⟨t, none⟩ => insertAll t rest
    | ⟨t, some index⟩ => ⟨t, some index⟩

/-- `void TrieBuilder::buildTrie(size_t start, size_t end)` (main.cpp 146-150). -/
def buildTrie (root : TrieNode) (words : List (List Char)) (start end_ : Nat) : InsertRun :=
  insertAll root ((words.drop start).take (end_ - start))

/-- The list `filteredList` that `WordListUpdater::onSearchTextChanged`
(main.cpp 176-185) computes and hands to the model. -/
def onSearchTextChanged (root : TrieNode) (text : List Char) : Outcome (List (List Char)) :=
  if text.isEmpty then .returns (root.suggestionsRec [] [])
  else root.printAutoSuggestions text

/-- `const size_t numThreadsTmp = 4;` (main.cpp 228). -/
def numThreadsTmp : Nat := 4

/-- `wordsPerThread = words.size() / numThreadsTmp` (main.cpp 230), for a
corpus of `n` words and `workers` ranges. -/
def wordsPerThread (workers n : Nat) : Nat := n / workers

/-- `size_t start = i * wordsPerThread;` (main.cpp 238).  The product is at
most `n`, so `size_t` arithmetic does not wrap. -/
def rangeStart (workers n i : Nat) : Nat := i * wordsPerThread workers n

/-- `size_t end = (i == numThreadsTmp - 1) ? words.size() : start + wordsPerThread;`
(main.cpp 239). -/
def rangeEnd (workers n i : Nat) : Nat :=
  if i = workers - 1 then n else rangeStart workers n i + wordsPerThread workers n

/-- The calls `buildTrie(start, end)` that `main` launches (main.cpp 237-241),
for `workers` ranges over the corpus, run to completion one after another in
the order of the worker numbers in `order`; a run that leaves the array is
followed no further. -/
def runWorkers (workers : Nat) (words : List (List Char)) : TrieNode → List Nat → InsertRun
  | root, [] => ⟨root, none⟩
  | root, i :: rest =>
    match buildTrie root words (rangeStart workers words.length i)
        (rangeEnd workers words.length i) with
    | ⟨t, none⟩ => runWorkers workers words t rest
    | ⟨t, some index⟩ => ⟨t, some index⟩

/-! ## Index paths

For keys made of letters the three walks of the source (`insert`, `search`,
`printAutoSuggestions`) follow the path of slot indices of the key.  The
definitions below describe a trie along such a path; they are used to state
and prove the lemmas, the theorems are about the functions above. -/

/-- A character whose `CHAR_TO_INDEX` lies in `0..25`. -/
def inAlphabet (c : Char) : Prop :=
  0 ≤ CHAR_TO_INDEX c ∧ CHAR_TO_INDEX c < 26

/-- An upper-case letter `A`..`Z`. -/
def isUpper (c : Char) : Prop :=
  65 ≤ c.toNat ∧ c.toNat ≤ 90

instance : DecidablePred isUpper :=
  fun c => inferInstanceAs (Decidable (65 ≤ c.toNat ∧ c.toNat ≤ 90))

/-- A word over the letters `A`..`Z`. -/
def upperWord (w : List Char) : Prop :=
  ∀ c ∈ w, isUpper c

instance : DecidablePred upperWord :=
  fun w => inferInstanceAs (Decidable (∀ c ∈ w, isUpper c))

/-- An ASCII letter, `A`..`Z` or `a`..`z`. -/
def isLetter (c : Char) : Prop :=
  (65 ≤ c.toNat ∧ c.toNat ≤ 90) ∨ (97 ≤ c.toNat ∧ c.toNat ≤ 122)

instance : DecidablePred isLetter :=
  fun c => inferInstanceAs
    (Decidable ((65 ≤ c.toNat ∧ c.toNat ≤ 90) ∨ (97 ≤ c.toNat ∧ c.toNat ≤ 122)))

/-- The key with `toupper` applied to every character. -/
def upperCase (w : List Char) : List Char :=
  w.map (fun c => Char.ofNat (toupper (c.toNat : Int)).toNat)

/-- The slot index of a character. -/
def slot (c : Char) : Nat := (CHAR_TO_INDEX c).toNat

/-- The slot indices of a key. -/
def slots (w : List Char) : List Nat := w.map slot

/-- The letters `QChar('A' + i)` of a path of slot indices. -/
def letters (p : List Nat) : List Char := p.map QChar

/-- The trie after marking the end of path `p`, creating the missing nodes. -/
def insertPath : TrieNode → List Nat → TrieNode
  | .mk _ cs, [] => .mk true cs
  | .mk e cs, i :: rest =>
    .mk e (cs.set i (insertPath ((cs.get i).getD TrieNode.new) rest))

/-- The trie after creating the missing nodes along path `p`, no flag set:
what the loop of `insert` has done when it has consumed `p`. -/
def extendPath : TrieNode → List Nat → TrieNode
  | t, [] => t
  | .mk e cs, i :: rest =>
    .mk e (cs.set i (extendPath ((cs.get i).getD TrieNode.new) rest))

/-- The node at the end of path `p`, when every slot on the way is set. -/
def descend : TrieNode → List Nat → Option TrieNode
  | t, [] => some t
  | t, i :: rest =>
    match t.children.get i with
    | none => none
    | some child => descend child rest

/-- The flag `isWordEnd` at the end of path `p`; `false` when the path leaves
the trie. -/
def lookup (t : TrieNode) (p : List Nat) : Bool :=
  match descend t p with
  | none => false
  | some n => n.isWordEnd

mutual
/-- The paths to the nodes with `isWordEnd`, in the order of the traversal
of `suggestionsRec`. -/
def paths : TrieNode → List (List Nat)
  | .mk e cs => (if e then [[]] else []) ++ pathsFrom cs 0
/-- The paths that go through one of the slots, the first of which is slot `i`. -/
def pathsFrom : Children → Nat → List (List Nat)
  | .nil, _ => []
  | .null rest, i => pathsFrom rest (i + 1)
  | .node c rest, i => (paths c).map (fun p => i :: p) ++ pathsFrom rest (i + 1)
end

/-! ## The console program (`vector-paralleohneGUIl.cpp`)

Its `TrieNode`, `getNode`, `insert`, `search` and `isLastNode` have the text of
the ones above; the traversal and `printAutoSuggestions` differ and are
embedded here.  What is written to `cout` is the list of lines. -/

mutual
/-- `void suggestionsRec(struct TrieNode* root, string currPrefix)`
(vector-paralleohneGUIl.cpp 97-124); `out` holds the lines written to `cout`
so far, the updated lines are returned. -/
def Console.suggestionsRec : TrieNode → List Char → List (List Char) → List (List Char)
  | .mk e cs, currPrefix, out =>
    let out1 := if e then out ++ [currPrefix] else out
    if cs.isLastNode then out1
    else (Console.suggestionsLoop cs 0 currPrefix out1).2
/-- The loop of the console `suggestionsRec` from slot `i` on: the string
`currPrefix` is extended with `push_back(65 + i)` before the recursive call
and restored with `pop_back()` after it.  Both the string and the lines are
returned. -/
def Console.suggestionsLoop : Children → Nat → List Char → List (List Char) →
    List Char × List (List Char)
  | .nil, _, currPrefix, out => (currPrefix, out)
  | .null rest, i, currPrefix, out => Console.suggestionsLoop rest (i + 1) currPrefix out
  | .node c rest, i, currPrefix, out =>
    let pushed := currPrefix ++ [Char.ofNat (65 + i)]
    let out1 := Console.suggestionsRec c pushed out
    Console.suggestionsLoop rest (i + 1) pushed.dropLast out1
end

/-- The values of a loop variable `for (char a = 'A'; a <= 'Z'; ++a)`. -/
def upperLetters : List Char :=
  (List.range 26).map (fun i => Char.ofNat (65 + i))

/-- The vector `words` that `main` fills (main.cpp 218-227,
vector-paralleohneGUIl.cpp 200-209): four nested loops over `'A'..'Z'`, the
innermost `push_back(std::string({ a, b, c, d }))`. -/
def corpus : List (List Char) :=
  upperLetters.flatMap fun a =>
    upperLetters.flatMap fun b =>
      upperLetters.flatMap fun c =>
        upperLetters.flatMap fun d => [[a, b, c, d]]

/-- The words of `k` upper-case letters, first letter outermost: the shape of
`corpus` for any number of nested loops. -/
def wordsOver : Nat → List (List Char)
  | 0 => [[]]
  | k + 1 => (List.range 26).flatMap (fun a => (wordsOver k).map (fun w => QChar a :: w))

/-- The word of `k` letters with number `i`: its letters are the digits of `i`
in base 26. -/
def wordAt : Nat → Nat → List Char
  | 0, _ => []
  | k + 1, i => QChar (i / 26 ^ k) :: wordAt k (i % 26 ^ k)

/-- How a call of the console `printAutoSuggestions` ends: with
`return code;`, at the closing brace of the function without a `return`
statement, or at `children[index]` with `index` outside `0..25`. -/
inductive Console.Exit where
  | returned (code : Int)
  | noReturn
  | outOfRange (index : Int)
  deriving DecidableEq, Repr

/-- A call of the console `printAutoSuggestions`: the lines written to `cout`
and how the call ends. -/
structure Console.Run where
  output : List (List Char)
  exit : Console.Exit
  deriving DecidableEq

/-- The loop of the console `printAutoSuggestions`
(vector-paralleohneGUIl.cpp 136-145): the node `pCrawl` ends on, `none` at the
early `return 0`. -/
def Console.crawl : TrieNode → List Char → Outcome (Option TrieNode)
  | t, [] => .returns (some t)
  | t, c :: rest =>
    let index := CHAR_TO_INDEX c
    if 0 ≤ index ∧ index < 26 then
      match t.children.get index.toNat with
      | none => .returns none
      | some child => Console.crawl child rest
    else
      .outOfRange index

/-- `int printAutoSuggestions(TrieNode* root, const string query)`
(vector-paralleohneGUIl.cpp 127-171). -/
def Console.printAutoSuggestions (root : TrieNode) (query : List Char) : Console.Run :=
  match Console.crawl root query with
  | .outOfRange index => ⟨[], .outOfRange index⟩
  | .returns none => ⟨[], .returned 0⟩
  | .returns (some pCrawl) =>
    let isWord := pCrawl.isWordEnd == true
    let isLast := pCrawl.isLastNode
    if isWord && isLast then ⟨[query], .returned (-1)⟩
    else if !isLast then ⟨Console.suggestionsRec pCrawl query [], .returned 1⟩
    else ⟨[], .noReturn⟩

mutual
/-- The number of nodes of the tree, the root included. -/
def TrieNode.nodeCount : TrieNode → Nat
  | .mk _ cs => 1 + cs.nodeCount
/-- The number of nodes below these slots. -/
def Children.nodeCount : Children → Nat
  | .nil => 0
  | .null rest => rest.nodeCount
  | .node c rest => c.nodeCount + rest.nodeCount
end

mutual
/-- The paths from the root to every node of the tree, the empty path to the
root first. -/
def nodePaths : TrieNode → List (List Nat)
  | .mk _ cs => [] :: nodePathsFrom cs 0
/-- The paths to the nodes below these slots, the first of which is slot `i`. -/
def nodePathsFrom : Children → Nat → List (List Nat)
  | .nil, _ => []
  | .null rest, i => nodePathsFrom rest (i + 1)
  | .node c rest, i => (nodePaths c).map (fun p => i :: p) ++ nodePathsFrom rest (i + 1)
end

/-- The places `pCrawl->children[index]` that `insert(key)` tests, and writes
when the test finds `nullptr` (main.cpp 56-57): each is given by the path of
slots from the root to `pCrawl` and the index. -/
def insertAccesses : List Nat → List Char → List (List Nat × Int)
  | _, [] => []
  | path, c :: rest =>
    let index := CHAR_TO_INDEX c
    (path, index) ::
      (if 0 ≤ index ∧ index < 26 then insertAccesses (path ++ [index.toNat]) rest else [])

/-! ## The array of children -/

theorem Children.size_empty (n : Nat) : (Children.empty n).size = n := by
  induction n with
  | zero => rfl
  | succ n ih => simp [Children.empty, Children.size, ih]

theorem Children.get_empty (n i : Nat) : (Children.empty n).get i = none := by
  induction n generalizing i with
  | zero => rfl
  | succ n ih => cases i <;> simp [Children.empty, Children.get, ih]

theorem Children.wf_empty (n : Nat) : (Children.empty n).wf = true := by
  induction n with
  | zero => rfl
  | succ n ih => simpa [Children.empty, Children.wf] using ih

theorem Children.isLastNode_empty (n : Nat) : (Children.empty n).isLastNode = true := by
  induction n with
  | zero => rfl
  | succ n ih => simpa [Children.empty, Children.isLastNode] using ih

theorem Children.size_set : ∀ (cs : Children) (i : Nat) (c : TrieNode),
    (cs.set i c).size = cs.size
  | .nil, _, _ => rfl
  | .null _, 0, _ => rfl
  | .node _ _, 0, _ => rfl
  | .null rest, i + 1, c => by simp [Children.set, Children.size, Children.size_set rest i c]
  | .node _ rest, i + 1, c => by simp [Children.set, Children.size, Children.size_set rest i c]

theorem Children.get_set_eq : ∀ (cs : Children) (i : Nat) (c : TrieNode),
    i < cs.size → (cs.set i c).get i = some c
  | .nil, _, _, h => by simp [Children.size] at h
  | .null _, 0, _, _ => rfl
  | .node _ _, 0, _, _ => rfl
  | .null rest, i + 1, c, h => by
    simpa [Children.set, Children.get] using
      Children.get_set_eq rest i c (by simpa [Children.size] using h)
  | .node _ rest, i + 1, c, h => by
    simpa [Children.set, Children.get] using
      Children.get_set_eq rest i c (by simpa [Children.size] using h)

theorem Children.get_set_ne : ∀ (cs : Children) (i j : Nat) (c : TrieNode),
    i ≠ j → (cs.set i c).get j = cs.get j
  | .nil, _, _, _, _ => rfl
  | .null _, 0, 0, _, h => absurd rfl h
  | .node _ _, 0, 0, _, h => absurd rfl h
  | .null _, 0, _ + 1, _, _ => rfl
  | .node _ _, 0, _ + 1, _, _ => rfl
  | .null _, _ + 1, 0, _, _ => rfl
  | .node _ _, _ + 1, 0, _, _ => rfl
  | .null rest, i + 1, j + 1, c, h => by
    simpa [Children.set, Children.get] using
      Children.get_set_ne rest i j c (fun e => h (by rw [e]))
  | .node _ rest, i + 1, j + 1, c, h => by
    simpa [Children.set, Children.get] using
      Children.get_set_ne rest i j c (fun e => h (by rw [e]))

theorem Children.get_lt_size : ∀ (cs : Children) (i : Nat) (c : TrieNode),
    cs.get i = some c → i < cs.size
  | .nil, _, _, h => by simp [Children.get] at h
  | .null _, 0, _, h => by simp [Children.get] at h
  | .node _ _, 0, _, _ => by simp [Children.size]
  | .null rest, i + 1, c, h => by
    have := Children.get_lt_size rest i c (by simpa [Children.get] using h)
    simp [Children.size]; omega
  | .node _ rest, i + 1, c, h => by
    have := Children.get_lt_size rest i c (by simpa [Children.get] using h)
    simp [Children.size]; omega

theorem Children.set_set_eq : ∀ (cs : Children) (i : Nat) (c d : TrieNode),
    (cs.set i c).set i d = cs.set i d
  | .nil, _, _, _ => rfl
  | .null _, 0, _, _ => rfl
  | .node _ _, 0, _, _ => rfl
  | .null rest, i + 1, c, d => by simp [Children.set, Children.set_set_eq rest i c d]
  | .node _ rest, i + 1, c, d => by simp [Children.set, Children.set_set_eq rest i c d]

theorem Children.set_set_comm : ∀ (cs : Children) (i j : Nat) (c d : TrieNode),
    i ≠ j → (cs.set i c).set j d = (cs.set j d).set i c
  | .nil, _, _, _, _, _ => rfl
  | .null _, 0, 0, _, _, h => absurd rfl h
  | .node _ _, 0, 0, _, _, h => absurd rfl h
  | .null _, 0, _ + 1, _, _, _ => rfl
  | .node _ _, 0, _ + 1, _, _, _ => rfl
  | .null _, _ + 1, 0, _, _, _ => rfl
  | .node _ _, _ + 1, 0, _, _, _ => rfl
  | .null rest, i + 1, j + 1, c, d, h => by
    simp [Children.set, Children.set_set_comm rest i j c d (fun e => h (by rw [e]))]
  | .node _ rest, i + 1, j + 1, c, d, h => by
    simp [Children.set, Children.set_set_comm rest i j c d (fun e => h (by rw [e]))]

theorem Children.wf_get : ∀ (cs : Children) (i : Nat) (c : TrieNode),
    cs.wf = true → cs.get i = some c → c.wf = true
  | .nil, _, _, _, h => by simp [Children.get] at h
  | .null _, 0, _, _, h => by simp [Children.get] at h
  | .node d _, 0, c, hw, h => by
    simp [Children.get] at h
    simp [Children.wf] at hw
    rw [← h]; exact hw.1
  | .null rest, i + 1, c, hw, h =>
    Children.wf_get rest i c (by simpa [Children.wf] using hw) (by simpa [Children.get] using h)
  | .node _ rest, i + 1, c, hw, h =>
    Children.wf_get rest i c (by simp [Children.wf] at hw; exact hw.2)
      (by simpa [Children.get] using h)

theorem Children.wf_set : ∀ (cs : Children) (i : Nat) (c : TrieNode),
    cs.wf = true → c.wf = true → (cs.set i c).wf = true
  | .nil, _, _, _, _ => rfl
  | .null _, 0, _, hw, hc => by
    simp [Children.wf] at hw; simp [Children.set, Children.wf, hw, hc]
  | .node _ _, 0, _, hw, hc => by
    simp [Children.wf] at hw; simp [Children.set, Children.wf, hw.2, hc]
  | .null rest, i + 1, c, hw, hc => by
    simp [Children.wf] at hw
    simpa [Children.set, Children.wf] using Children.wf_set rest i c hw hc
  | .node _ rest, i + 1, c, hw, hc => by
    simp [Children.wf] at hw
    simp [Children.set, Children.wf, hw.1, Children.wf_set rest i c hw.2 hc]


theorem toNat_QChar (i : Nat) (h : i < 26) : (QChar i).toNat = 65 + i := by
  interval_cases i <;> rfl

theorem char_lt_iff (a b : Char) : a < b ↔ a.toNat < b.toNat := by
  rw [Char.lt_def]
  exact Iff.rfl

theorem char_eq_of_toNat (a b : Char) (h : a.toNat = b.toNat) : a = b := by
  rw [← Char.ofNat_toNat a, ← Char.ofNat_toNat b, h]

theorem CHAR_TO_INDEX_upper (c : Char) (h : isUpper c) :
    CHAR_TO_INDEX c = (c.toNat : Int) - 65 := by
  unfold isUpper at h
  unfold CHAR_TO_INDEX toupper
  rw [if_neg (by omega)]

theorem inAlphabet_iff (c : Char) :
    inAlphabet c ↔ (65 ≤ c.toNat ∧ c.toNat ≤ 90) ∨ (97 ≤ c.toNat ∧ c.toNat ≤ 122) := by
  unfold inAlphabet CHAR_TO_INDEX toupper
  split <;> omega


/-! ## Insert, search and the walk along index paths -/

theorem TrieNode.wf_new : TrieNode.new.wf = true := by
  simp [TrieNode.new, TrieNode.wf, Children.size_empty, Children.wf_empty]

theorem TrieNode.wf_mk {e : Bool} {cs : Children} (h : (TrieNode.mk e cs).wf = true) :
    cs.size = 26 ∧ cs.wf = true := by
  simpa [TrieNode.wf, ALPHABET_SIZE] using h

theorem wf_getD {cs : Children} (h : cs.wf = true) (i : Nat) :
    ((cs.get i).getD TrieNode.new).wf = true := by
  cases hg : cs.get i with
  | none => simpa using TrieNode.wf_new
  | some c => simpa using Children.wf_get cs i c h hg

theorem wf_insertPath : ∀ (p : List Nat) (t : TrieNode), t.wf = true →
    (insertPath t p).wf = true
  | [], .mk e cs, h => by
    have := TrieNode.wf_mk h
    simp [insertPath, TrieNode.wf, ALPHABET_SIZE, this.1, this.2]
  | i :: rest, .mk e cs, h => by
    have hcs := TrieNode.wf_mk h
    have hc := wf_insertPath rest _ (wf_getD hcs.2 i)
    simp [insertPath, TrieNode.wf, ALPHABET_SIZE, Children.size_set, hcs.1,
      Children.wf_set cs i _ hcs.2 hc]

theorem lookup_nil (t : TrieNode) : lookup t [] = t.isWordEnd := rfl

theorem lookup_cons (t : TrieNode) (i : Nat) (r : List Nat) :
    lookup t (i :: r) = match t.children.get i with
      | none => false
      | some c => lookup c r := by
  unfold lookup
  simp only [descend]
  cases t.children.get i <;> rfl

theorem lookup_new (q : List Nat) : lookup TrieNode.new q = false := by
  cases q with
  | nil => rfl
  | cons i r => simp [lookup_cons, TrieNode.new, TrieNode.children, Children.get_empty]

theorem lookup_insertPath : ∀ (p q : List Nat) (t : TrieNode), t.wf = true →
    (∀ i ∈ p, i < 26) → lookup (insertPath t p) q = (decide (q = p) || lookup t q)
  | [], q, .mk e cs, _, _ => by
    cases q with
    | nil => simp [insertPath, lookup_nil, TrieNode.isWordEnd]
    | cons j r => simp [insertPath, lookup_cons, TrieNode.children]
  | i :: rest, [], .mk e cs, _, _ => by
    simp [insertPath, lookup_nil, TrieNode.isWordEnd]
  | i :: rest, j :: r, .mk e cs, h, hp => by
    have hcs := TrieNode.wf_mk h
    have hi : i < cs.size := by rw [hcs.1]; exact hp i (List.mem_cons_self _ _)
    have ih := lookup_insertPath rest r _ (wf_getD hcs.2 i)
      (fun k hk => hp k (List.mem_cons_of_mem _ hk))
    by_cases hji : j = i
    · subst hji
      simp only [insertPath, lookup_cons, TrieNode.children, Children.get_set_eq cs j _ hi, ih]
      cases hg : cs.get j with
      | none => simp [lookup_new]
      | some c => simp
    · simp only [insertPath, lookup_cons, TrieNode.children,
        Children.get_set_ne cs i j _ (fun e => hji e.symm)]
      simp [hji]

theorem slots_cons (c : Char) (w : List Char) : slots (c :: w) = slot c :: slots w := rfl

theorem slot_lt {c : Char} (h : inAlphabet c) : slot c < 26 := by
  unfold inAlphabet at h
  unfold slot
  omega

theorem slots_lt {w : List Char} (h : ∀ c ∈ w, inAlphabet c) : ∀ i ∈ slots w, i < 26 := by
  intro i hi
  simp only [slots, List.mem_map] at hi
  obtain ⟨c, hc, rfl⟩ := hi
  exact slot_lt (h c hc)

theorem insert_eq_insertPath : ∀ (w : List Char) (t : TrieNode), (∀ c ∈ w, inAlphabet c) →
    t.insert w = ⟨insertPath t (slots w), none⟩
  | [], .mk e cs, _ => rfl
  | c :: rest, .mk e cs, h => by
    have hc : inAlphabet c := h c (List.mem_cons_self _ _)
    have ih := insert_eq_insertPath rest ((cs.get (slot c)).getD TrieNode.new)
      (fun d hd => h d (List.mem_cons_of_mem _ hd))
    have hc2 : 0 ≤ CHAR_TO_INDEX c ∧ CHAR_TO_INDEX c < 26 := hc
    simp only [TrieNode.insert, slots_cons, insertPath]
    rw [if_pos hc2]
    simp only [slot] at ih
    simp only [ih, slot, slots]

theorem search_eq_lookup : ∀ (w : List Char) (t : TrieNode), (∀ c ∈ w, inAlphabet c) →
    t.search w = .returns (lookup t (slots w))
  | [], _, _ => rfl
  | c :: rest, t, h => by
    have hc : inAlphabet c := h c (List.mem_cons_self _ _)
    have hc2 : 0 ≤ CHAR_TO_INDEX c ∧ CHAR_TO_INDEX c < 26 := hc
    simp only [TrieNode.search, slots_cons, lookup_cons]
    rw [if_pos hc2]
    show (match t.children.get (slot c) with
      | none => Outcome.returns false
      | some child => child.search rest) = _
    cases hg : t.children.get (slot c) with
    | none => rfl
    | some child =>
      exact search_eq_lookup rest child (fun d hd => h d (List.mem_cons_of_mem _ hd))


/-! ## The traversal -/

theorem Children.suggestionsLoop_isLastNode : ∀ (cs : Children) (i : Nat) (pre : List Char)
    (wl : List (List Char)), cs.isLastNode = true → cs.suggestionsLoop i pre wl = wl
  | .nil, _, _, _, _ => by simp [Children.suggestionsLoop]
  | .null rest, i, pre, wl, h => by
    simpa [Children.suggestionsLoop] using
      Children.suggestionsLoop_isLastNode rest (i + 1) pre wl (by simpa [Children.isLastNode] using h)
  | .node _ _, _, _, _, h => by simp [Children.isLastNode] at h

theorem TrieNode.suggestionsRec_mk (e : Bool) (cs : Children) (pre : List Char)
    (wl : List (List Char)) :
    (TrieNode.mk e cs).suggestionsRec pre wl =
      cs.suggestionsLoop 0 pre (if e then wl ++ [pre] else wl) := by
  simp only [TrieNode.suggestionsRec]
  split
  · next h => rw [Children.suggestionsLoop_isLastNode cs 0 pre _ h]
  · rfl

mutual
theorem suggestionsRec_eq_paths : ∀ (t : TrieNode) (pre : List Char) (wl : List (List Char)),
    t.suggestionsRec pre wl = wl ++ (paths t).map (fun p => pre ++ letters p)
  | .mk e cs, pre, wl => by
    rw [TrieNode.suggestionsRec_mk, suggestionsLoop_eq_pathsFrom cs 0 pre, paths]
    cases e <;> simp [letters]
theorem suggestionsLoop_eq_pathsFrom : ∀ (cs : Children) (i : Nat) (pre : List Char)
    (wl : List (List Char)),
    cs.suggestionsLoop i pre wl = wl ++ (pathsFrom cs i).map (fun p => pre ++ letters p)
  | .nil, _, _, _ => by simp [Children.suggestionsLoop, pathsFrom]
  | .null rest, i, pre, wl => by
    simpa [Children.suggestionsLoop, pathsFrom] using
      suggestionsLoop_eq_pathsFrom rest (i + 1) pre wl
  | .node c rest, i, pre, wl => by
    rw [Children.suggestionsLoop, suggestionsLoop_eq_pathsFrom rest (i + 1) pre,
      suggestionsRec_eq_paths c, pathsFrom]
    simp [letters, Function.comp_def]
end

theorem mem_pathsFrom : ∀ (cs : Children) (i : Nat) (p : List Nat),
    p ∈ pathsFrom cs i ↔ ∃ k c r, cs.get k = some c ∧ r ∈ paths c ∧ p = (i + k) :: r
  | .nil, i, p => by simp [pathsFrom, Children.get]
  | .null rest, i, p => by
    rw [pathsFrom, mem_pathsFrom rest (i + 1) p]
    constructor
    · rintro ⟨k, c, r, hg, hr, rfl⟩
      exact ⟨k + 1, c, r, by simpa [Children.get] using hg, hr, by rw [Nat.add_right_comm, Nat.add_assoc]⟩
    · rintro ⟨k, c, r, hg, hr, rfl⟩
      cases k with
      | zero => simp [Children.get] at hg
      | succ k =>
        exact ⟨k, c, r, by simpa [Children.get] using hg, hr, by rw [Nat.add_right_comm, Nat.add_assoc]⟩
  | .node d rest, i, p => by
    rw [pathsFrom, List.mem_append, mem_pathsFrom rest (i + 1) p]
    constructor
    · rintro (h | ⟨k, c, r, hg, hr, rfl⟩)
      · obtain ⟨r, hr, rfl⟩ := List.mem_map.1 h
        exact ⟨0, d, r, rfl, hr, rfl⟩
      · exact ⟨k + 1, c, r, by simpa [Children.get] using hg, hr, by rw [Nat.add_right_comm, Nat.add_assoc]⟩
    · rintro ⟨k, c, r, hg, hr, rfl⟩
      cases k with
      | zero =>
        simp [Children.get] at hg
        subst hg
        exact Or.inl (List.mem_map.2 ⟨r, hr, rfl⟩)
      | succ k =>
        exact Or.inr ⟨k, c, r, by simpa [Children.get] using hg, hr, by rw [Nat.add_right_comm, Nat.add_assoc]⟩

theorem mem_paths : ∀ (p : List Nat) (t : TrieNode), p ∈ paths t ↔ lookup t p = true
  | [], .mk e cs => by
    rw [paths, List.mem_append, mem_pathsFrom]
    cases e <;> simp [lookup_nil, TrieNode.isWordEnd]
  | i :: r, .mk e cs => by
    rw [paths, List.mem_append, mem_pathsFrom, lookup_cons]
    have h1 : i :: r ∉ (if e = true then [[]] else ([] : List (List Nat))) := by
      cases e <;> simp
    simp only [h1, false_or, TrieNode.children]
    constructor
    · rintro ⟨k, c, r', hg, hr, heq⟩
      simp only [Nat.zero_add, List.cons.injEq] at heq
      obtain ⟨rfl, rfl⟩ := heq
      rw [hg]
      exact (mem_paths r c).1 hr
    · intro h
      cases hg : cs.get i with
      | none => rw [hg] at h; exact absurd h (by simp)
      | some c =>
        rw [hg] at h
        exact ⟨i, c, r, hg, (mem_paths r c).2 h, by simp⟩

theorem lookup_lt : ∀ (p : List Nat) (t : TrieNode), t.wf = true → lookup t p = true →
    ∀ i ∈ p, i < 26
  | [], _, _, _ => by simp
  | j :: r, .mk e cs, hw, h => by
    have hcs := TrieNode.wf_mk hw
    rw [lookup_cons] at h
    simp only [TrieNode.children] at h
    cases hg : cs.get j with
    | none => rw [hg] at h; exact absurd h (by simp)
    | some c =>
      rw [hg] at h
      have hj := Children.get_lt_size cs j c hg
      have ih := lookup_lt r c (Children.wf_get cs j c hcs.2 hg) h
      intro i hi
      rcases List.mem_cons.1 hi with rfl | hi
      · omega
      · exact ih i hi

mutual
theorem paths_sorted : ∀ (t : TrieNode), (paths t).Pairwise (List.Lex (fun a b : Nat => a < b))
  | .mk e cs => by
    rw [paths, List.pairwise_append]
    refine ⟨by cases e <;> simp, pathsFrom_sorted cs 0, ?_⟩
    intro a ha b hb
    obtain ⟨k, c, r, _, _, rfl⟩ := (mem_pathsFrom cs 0 b).1 hb
    cases e with
    | false => simp at ha
    | true =>
      simp at ha
      subst ha
      exact List.Lex.nil
theorem pathsFrom_sorted : ∀ (cs : Children) (i : Nat),
    (pathsFrom cs i).Pairwise (List.Lex (fun a b : Nat => a < b))
  | .nil, _ => by simp [pathsFrom]
  | .null rest, i => by
    rw [pathsFrom]
    exact pathsFrom_sorted rest (i + 1)
  | .node c rest, i => by
    rw [pathsFrom, List.pairwise_append]
    refine ⟨?_, pathsFrom_sorted rest (i + 1), ?_⟩
    · rw [List.pairwise_map]
      exact (paths_sorted c).imp (fun h => List.Lex.cons h)
    · intro a ha b hb
      obtain ⟨r, _, rfl⟩ := List.mem_map.1 ha
      obtain ⟨k, d, r', _, _, rfl⟩ := (mem_pathsFrom rest (i + 1) b).1 hb
      exact List.Lex.rel (by omega)
end


/-! ## Letters and slot indices -/

theorem QChar_lt {i j : Nat} (hij : i < j) (hj : j < 26) : QChar i < QChar j := by
  rw [char_lt_iff, toNat_QChar i (by omega), toNat_QChar j hj]
  omega

theorem inAlphabet_of_isUpper {c : Char} (h : isUpper c) : inAlphabet c :=
  (inAlphabet_iff c).2 (Or.inl h)

theorem slot_upper {c : Char} (h : isUpper c) : slot c = c.toNat - 65 := by
  unfold slot
  rw [CHAR_TO_INDEX_upper c h]
  unfold isUpper at h
  omega

theorem QChar_slot {c : Char} (h : isUpper c) : QChar (slot c) = c := by
  apply char_eq_of_toNat
  have h2 := h
  unfold isUpper at h2
  rw [slot_upper h, toNat_QChar _ (by omega)]
  omega

theorem isUpper_QChar {i : Nat} (h : i < 26) : isUpper (QChar i) := by
  unfold isUpper
  rw [toNat_QChar i h]
  omega

theorem slot_QChar {i : Nat} (h : i < 26) : slot (QChar i) = i := by
  rw [slot_upper (isUpper_QChar h), toNat_QChar i h]
  omega

theorem letters_slots : ∀ (w : List Char), upperWord w → letters (slots w) = w
  | [], _ => rfl
  | c :: w, h => by
    have ih := letters_slots w (fun d hd => h d (List.mem_cons_of_mem _ hd))
    simp only [letters, slots, List.map_cons] at ih ⊢
    rw [ih, QChar_slot (h c (List.mem_cons_self _ _))]

theorem slots_letters : ∀ (p : List Nat), (∀ i ∈ p, i < 26) → slots (letters p) = p
  | [], _ => rfl
  | i :: p, h => by
    have ih := slots_letters p (fun j hj => h j (List.mem_cons_of_mem _ hj))
    simp only [letters, slots, List.map_cons] at ih ⊢
    rw [ih, slot_QChar (h i (List.mem_cons_self _ _))]

theorem upperWord_letters {p : List Nat} (h : ∀ i ∈ p, i < 26) : upperWord (letters p) := by
  intro c hc
  simp only [letters, List.mem_map] at hc
  obtain ⟨i, hi, rfl⟩ := hc
  exact isUpper_QChar (h i hi)

theorem slots_append (a b : List Char) : slots (a ++ b) = slots a ++ slots b := by
  simp [slots]

theorem letters_append (a b : List Nat) : letters (a ++ b) = letters a ++ letters b := by
  simp [letters]

theorem inAlphabet_of_upperWord {w : List Char} (h : upperWord w) : ∀ c ∈ w, inAlphabet c :=
  fun c hc => inAlphabet_of_isUpper (h c hc)

theorem slots_injective {v w : List Char} (hv : upperWord v) (hw : upperWord w)
    (h : slots v = slots w) : v = w := by
  rw [← letters_slots v hv, ← letters_slots w hw, h]

theorem lex_letters {p q : List Nat} (h : List.Lex (fun a b : Nat => a < b) p q) :
    (∀ i ∈ q, i < 26) → List.Lex (fun a b : Char => a < b) (letters p) (letters q) := by
  induction h with
  | nil => intro _; exact List.Lex.nil
  | cons _ ih =>
    intro hq
    exact List.Lex.cons (ih (fun i hi => hq i (List.mem_cons_of_mem _ hi)))
  | rel hab =>
    intro hq
    exact List.Lex.rel (QChar_lt hab (hq _ (List.mem_cons_self _ _)))

theorem toLatin1_of_inAlphabet {c : Char} (h : inAlphabet c) : toLatin1 c = c := by
  have := (inAlphabet_iff c).1 h
  unfold toLatin1
  rw [if_pos (by omega)]

/-! ## The walk of printAutoSuggestions -/

theorem walk_eq_descend : ∀ (p : List Char) (t : TrieNode), (∀ c ∈ p, inAlphabet c) →
    t.walk p = .returns (descend t (slots p))
  | [], _, _ => rfl
  | c :: rest, t, h => by
    have hc : inAlphabet c := h c (List.mem_cons_self _ _)
    have hc2 : 0 ≤ CHAR_TO_INDEX c ∧ CHAR_TO_INDEX c < 26 := hc
    simp only [TrieNode.walk, slots_cons, descend, toLatin1_of_inAlphabet hc]
    rw [if_pos hc2]
    show (match t.children.get (slot c) with
      | none => Outcome.returns none
      | some child => child.walk rest) = _
    cases hg : t.children.get (slot c) with
    | none => rfl
    | some child =>
      exact walk_eq_descend rest child (fun d hd => h d (List.mem_cons_of_mem _ hd))

theorem lookup_append : ∀ (a b : List Nat) (t : TrieNode),
    lookup t (a ++ b) = match descend t a with
      | none => false
      | some n => lookup n b
  | [], _, _ => rfl
  | i :: a, b, t => by
    rw [List.cons_append, lookup_cons]
    simp only [descend]
    cases hg : t.children.get i with
    | none => rfl
    | some c => exact lookup_append a b c

theorem wf_descend : ∀ (a : List Nat) (t n : TrieNode), t.wf = true → descend t a = some n →
    n.wf = true
  | [], t, n, hw, h => by
    simp only [descend, Option.some.injEq] at h
    rw [← h]; exact hw
  | i :: a, .mk e cs, n, hw, h => by
    simp only [descend, TrieNode.children] at h
    cases hg : cs.get i with
    | none => rw [hg] at h; exact absurd h (by simp)
    | some c =>
      rw [hg] at h
      exact wf_descend a c n (Children.wf_get cs i c (TrieNode.wf_mk hw).2 hg) h

theorem suggestionsRec_of_isLastNode (n : TrieNode) (pre : List Char) (wl : List (List Char))
    (h : n.isLastNode = true) :
    n.suggestionsRec pre wl = if n.isWordEnd then wl ++ [pre] else wl := by
  cases n with
  | mk e cs =>
    rw [TrieNode.suggestionsRec_mk,
      Children.suggestionsLoop_isLastNode cs 0 pre _ (by simpa [TrieNode.isLastNode, TrieNode.children] using h)]
    rfl

theorem printAutoSuggestions_of_walk (t n : TrieNode) (p : List Char)
    (h : t.walk p = .returns (some n)) :
    t.printAutoSuggestions p = .returns (n.suggestionsRec p []) := by
  unfold TrieNode.printAutoSuggestions
  rw [h]
  simp only
  cases hl : n.isLastNode with
  | false => simp
  | true =>
    rw [suggestionsRec_of_isLastNode n p [] hl]
    cases n.isWordEnd <;> simp

theorem printAutoSuggestions_of_walk_none (t : TrieNode) (p : List Char)
    (h : t.walk p = .returns none) : t.printAutoSuggestions p = .returns [] := by
  unfold TrieNode.printAutoSuggestions
  rw [h]

/-! ## Inserting a list of words -/

theorem insertAll_eq : ∀ (ws : List (List Char)) (t : TrieNode),
    (∀ w ∈ ws, ∀ c ∈ w, inAlphabet c) →
    insertAll t ws = ⟨(ws.map slots).foldl insertPath t, none⟩
  | [], _, _ => rfl
  | w :: ws, t, h => by
    rw [insertAll, insert_eq_insertPath w t (h w (List.mem_cons_self _ _))]
    simp only [List.map_cons, List.foldl_cons]
    exact insertAll_eq ws _ (fun v hv => h v (List.mem_cons_of_mem _ hv))

theorem wf_foldl_insertPath : ∀ (ps : List (List Nat)) (t : TrieNode), t.wf = true →
    (ps.foldl insertPath t).wf = true
  | [], _, h => h
  | p :: ps, t, h => wf_foldl_insertPath ps _ (wf_insertPath p t h)

theorem lookup_foldl_insertPath : ∀ (ps : List (List Nat)) (q : List Nat) (t : TrieNode),
    t.wf = true → (∀ p ∈ ps, ∀ i ∈ p, i < 26) →
    lookup (ps.foldl insertPath t) q = (decide (q ∈ ps) || lookup t q)
  | [], q, t, _, _ => by simp
  | p :: ps, q, t, h, hp => by
    rw [List.foldl_cons, lookup_foldl_insertPath ps q _ (wf_insertPath p t h)
      (fun r hr => hp r (List.mem_cons_of_mem _ hr)),
      lookup_insertPath p q t h (hp p (List.mem_cons_self _ _))]
    by_cases h1 : q = p <;> by_cases h2 : q ∈ ps <;> simp [h1, h2]


/-! ## The trie built from a corpus -/

theorem wf_insertAll (ws : List (List Char)) (h : ∀ w ∈ ws, upperWord w) :
    (insertAll TrieNode.new ws).trie.wf = true ∧ (insertAll TrieNode.new ws).outOfRange = none := by
  rw [insertAll_eq ws _ (fun w hw => inAlphabet_of_upperWord (h w hw))]
  exact ⟨wf_foldl_insertPath _ _ TrieNode.wf_new, rfl⟩

theorem lookup_insertAll (ws : List (List Char)) (h : ∀ w ∈ ws, upperWord w) (q : List Nat) :
    lookup (insertAll TrieNode.new ws).trie q = decide (q ∈ ws.map slots) := by
  rw [insertAll_eq ws _ (fun w hw => inAlphabet_of_upperWord (h w hw))]
  simp only []
  rw [lookup_foldl_insertPath _ q _ TrieNode.wf_new, lookup_new, Bool.or_false]
  intro p hp
  obtain ⟨w, hw, rfl⟩ := List.mem_map.1 hp
  exact slots_lt (inAlphabet_of_upperWord (h w hw))

theorem search_insertAll (ws : List (List Char)) (h : ∀ w ∈ ws, upperWord w)
    (w : List Char) (hw : upperWord w) :
    (insertAll TrieNode.new ws).trie.search w = .returns (decide (w ∈ ws)) := by
  rw [search_eq_lookup w _ (inAlphabet_of_upperWord hw), lookup_insertAll ws h]
  congr 1
  apply decide_eq_decide.2
  constructor
  · intro hm
    obtain ⟨v, hv, hvw⟩ := List.mem_map.1 hm
    rw [← slots_injective (h v hv) hw hvw]
    exact hv
  · intro hm
    exact List.mem_map.2 ⟨w, hm, rfl⟩

theorem sorted_suggestionsRec (n : TrieNode) (hn : n.wf = true) (p : List Char) :
    (n.suggestionsRec p []).Pairwise (List.Lex (fun a b : Char => a < b)) := by
  rw [suggestionsRec_eq_paths, List.nil_append, List.pairwise_map]
  refine (paths_sorted n).imp_of_mem ?_
  intro a b _ hb hab
  exact List.Lex.append_left _ (lex_letters hab (lookup_lt b n hn ((mem_paths b n).1 hb))) p

theorem mem_suggestionsRec (n : TrieNode) (p w : List Char) :
    w ∈ n.suggestionsRec p [] ↔ ∃ q, lookup n q = true ∧ w = p ++ letters q := by
  rw [suggestionsRec_eq_paths, List.nil_append, List.mem_map]
  constructor
  · rintro ⟨q, hq, rfl⟩
    exact ⟨q, (mem_paths q n).1 hq, rfl⟩
  · rintro ⟨q, hq, rfl⟩
    exact ⟨q, (mem_paths q n).2 hq, rfl⟩

theorem nodup_of_lex_sorted {r : List (List Char)}
    (h : r.Pairwise (List.Lex (fun a b : Char => a < b))) : r.Nodup := by
  refine h.imp ?_
  intro a b hab heq
  subst heq
  exact (lt_irrefl a) hab

/-- The enumeration for a prefix over `A`..`Z` on the trie built from a corpus
over `A`..`Z`: it returns, and the list it returns is strictly ascending and
holds exactly the corpus words that start with the prefix. -/
theorem suggestions_spec (ws : List (List Char)) (p : List Char)
    (hws : ∀ w ∈ ws, upperWord w) (hp : upperWord p) :
    ∃ r, (insertAll TrieNode.new ws).trie.printAutoSuggestions p = .returns r ∧
      (∀ w, w ∈ r ↔ (w ∈ ws ∧ p <+: w)) ∧ r.Nodup ∧ r.Sorted (· < ·) := by
  have hwf := (wf_insertAll ws hws).1
  have hwalk := walk_eq_descend p (insertAll TrieNode.new ws).trie (inAlphabet_of_upperWord hp)
  have hlk := lookup_insertAll ws hws
  cases hd : descend (insertAll TrieNode.new ws).trie (slots p) with
  | none =>
    rw [hd] at hwalk
    refine ⟨[], printAutoSuggestions_of_walk_none _ _ hwalk, ?_, List.nodup_nil, List.sorted_nil⟩
    intro w
    constructor
    · intro h; exact absurd h (List.not_mem_nil _)
    · rintro ⟨hw, s, rfl⟩
      exfalso
      have h1 := hlk (slots (p ++ s))
      rw [slots_append, lookup_append, hd] at h1
      have h2 : slots p ++ slots s ∈ ws.map slots :=
        List.mem_map.2 ⟨p ++ s, hw, slots_append p s⟩
      simp [h2] at h1
  | some n =>
    rw [hd] at hwalk
    have hn := wf_descend _ _ n hwf hd
    have hsorted := sorted_suggestionsRec n hn p
    refine ⟨n.suggestionsRec p [], printAutoSuggestions_of_walk _ n p hwalk, ?_,
      nodup_of_lex_sorted hsorted, hsorted⟩
    intro w
    rw [mem_suggestionsRec]
    constructor
    · rintro ⟨q, hq, rfl⟩
      have h1 := hlk (slots p ++ q)
      rw [lookup_append, hd] at h1
      simp only [] at h1
      rw [hq] at h1
      obtain ⟨v, hv, hvq⟩ := List.mem_map.1 (of_decide_eq_true h1.symm)
      have hq26 := lookup_lt q n hn hq
      have : v = p ++ letters q := by
        apply slots_injective (hws v hv)
        · intro c hc
          rcases List.mem_append.1 hc with hc | hc
          · exact hp c hc
          · exact upperWord_letters hq26 c hc
        · rw [hvq, slots_append, slots_letters q hq26]
      rw [← this]
      exact ⟨hv, by rw [this]; exact List.prefix_append _ _⟩
    · rintro ⟨hw, s, rfl⟩
      have hs : upperWord s := fun c hc => hws _ hw c (List.mem_append_right _ hc)
      refine ⟨slots s, ?_, by rw [letters_slots s hs]⟩
      have h1 := hlk (slots p ++ slots s)
      rw [lookup_append, hd] at h1
      simp only [] at h1
      rw [h1]
      exact decide_eq_true (List.mem_map.2 ⟨p ++ s, hw, slots_append p s⟩)


/-! ## Enumeration and membership on a built trie -/

/-- C1: on the trie built by inserting a list of words over A-Z into an empty
trie, `printAutoSuggestions p` for a prefix `p` over A-Z returns a list that
holds exactly the inserted words starting with `p`, each once (repeats in the
input included), in ascending lexicographic order; inserting CAT, CATALOG, CAR
and querying CA gives CAR, CAT, CATALOG. -/
theorem printAutoSuggestions_exact (ws : List (List Char)) (p : List Char)
    (hws : ∀ w ∈ ws, upperWord w) (hp : upperWord p) :
    (∃ r, (insertAll TrieNode.new ws).trie.printAutoSuggestions p = .returns r ∧
      (∀ w, w ∈ r ↔ (w ∈ ws ∧ p <+: w)) ∧ r.Nodup ∧ r.Sorted (· < ·)) ∧
    (insertAll TrieNode.new [ "CAT".toList, "CATALOG".toList, "CAR".toList ]).trie.printAutoSuggestions
      "CA".toList = .returns [ "CAR".toList, "CAT".toList, "CATALOG".toList ] :=
  ⟨suggestions_spec ws p hws hp, by decide⟩

theorem printAutoSuggestions_exact_witness :
    ∃ r, (insertAll TrieNode.new
        [ "CAT".toList, "CATALOG".toList, "CAR".toList, "CAT".toList ]).trie.printAutoSuggestions
        "CA".toList = .returns r ∧
      (∀ w, w ∈ r ↔
        (w ∈ [ "CAT".toList, "CATALOG".toList, "CAR".toList, "CAT".toList ] ∧ "CA".toList <+: w)) ∧
      r.Nodup ∧ r.Sorted (· < ·) :=
  (printAutoSuggestions_exact [ "CAT".toList, "CATALOG".toList, "CAR".toList, "CAT".toList ]
    "CA".toList (by decide) (by decide)).1

/-- C2: after inserting every word of a list over A-Z, in list order, into an
empty trie (no insert leaves the array), `search w` returns true for every
word `w` of the list. -/
theorem search_inserted (ws : List (List Char)) (hws : ∀ w ∈ ws, upperWord w)
    (w : List Char) (hw : w ∈ ws) :
    (insertAll TrieNode.new ws).outOfRange = none ∧
    (insertAll TrieNode.new ws).trie.search w = .returns true := by
  refine ⟨(wf_insertAll ws hws).2, ?_⟩
  rw [search_insertAll ws hws w (hws w hw), decide_eq_true hw]

theorem search_inserted_witness :
    (insertAll TrieNode.new [ "DOG".toList, "DO".toList, "CAT".toList ]).outOfRange = none ∧
    (insertAll TrieNode.new [ "DOG".toList, "DO".toList, "CAT".toList ]).trie.search "DO".toList
      = .returns true :=
  search_inserted [ "DOG".toList, "DO".toList, "CAT".toList ] (by decide) "DO".toList (by decide)

/-- C3: on the trie built by inserting a list of words (sequences over the
alphabet A-Z) into an empty trie, `search w` returns false for every word `w`
that is not an element of the list; after inserting only DOG, `search DO` is
false and `search DOG` is true. -/
theorem search_not_inserted (ws : List (List Char)) (hws : ∀ w ∈ ws, upperWord w)
    (w : List Char) (hw : upperWord w) (hn : w ∉ ws) :
    (insertAll TrieNode.new ws).trie.search w = .returns false ∧
    (insertAll TrieNode.new [ "DOG".toList ]).trie.search "DO".toList = .returns false ∧
    (insertAll TrieNode.new [ "DOG".toList ]).trie.search "DOG".toList = .returns true := by
  refine ⟨?_, by decide, by decide⟩
  rw [search_insertAll ws hws w hw, decide_eq_false hn]

theorem search_not_inserted_witness :
    (insertAll TrieNode.new [ "DOG".toList, "CATALOG".toList ]).trie.search "CAT".toList
      = .returns false :=
  (search_not_inserted [ "DOG".toList, "CATALOG".toList ] (by decide) "CAT".toList
    (by decide) (by decide)).1

/-- C4: for the trie built by inserting words over A-Z and every query text,
the list `onSearchTextChanged` computes is the one `printAutoSuggestions`
gives for that text; for the empty text it is the enumeration
`suggestionsRec` from the root with the empty prefix, which holds exactly the
inserted words, without duplicates, in ascending lexicographic order. -/
theorem onSearchTextChanged_spec (ws : List (List Char)) (hws : ∀ w ∈ ws, upperWord w)
    (text : List Char) :
    onSearchTextChanged (insertAll TrieNode.new ws).trie text
      = (insertAll TrieNode.new ws).trie.printAutoSuggestions text ∧
    ∃ r, onSearchTextChanged (insertAll TrieNode.new ws).trie [] = .returns r ∧
      r = (insertAll TrieNode.new ws).trie.suggestionsRec [] [] ∧
      (∀ w, w ∈ r ↔ w ∈ ws) ∧ r.Nodup ∧ r.Sorted (· < ·) := by
  have hroot : ∀ t : TrieNode, onSearchTextChanged t [] = t.printAutoSuggestions [] := by
    intro t
    rw [printAutoSuggestions_of_walk t t [] rfl]
    rfl
  constructor
  · cases text with
    | nil => exact hroot _
    | cons c rest => rfl
  · obtain ⟨r, hr, hmem, hnd, hs⟩ := suggestions_spec ws [] hws (fun c hc => absurd hc (List.not_mem_nil c))
    refine ⟨r, by rw [hroot, hr], ?_, ?_, hnd, hs⟩
    · have h2 := printAutoSuggestions_of_walk (insertAll TrieNode.new ws).trie _ [] rfl
      rw [hr] at h2
      exact Outcome.returns.inj h2
    · intro w
      rw [hmem w]
      exact ⟨fun h => h.1, fun h => ⟨h, List.nil_prefix⟩⟩

theorem onSearchTextChanged_spec_witness :
    onSearchTextChanged (insertAll TrieNode.new [ "CAT".toList, "CAR".toList ]).trie "C4".toList
      = (insertAll TrieNode.new [ "CAT".toList, "CAR".toList ]).trie.printAutoSuggestions "C4".toList :=
  (onSearchTextChanged_spec [ "CAT".toList, "CAR".toList ] (by decide) "C4".toList).1


/-! ## Idempotence and commutation of insert -/

theorem insertPath_idem : ∀ (p : List Nat) (t : TrieNode), t.wf = true → (∀ i ∈ p, i < 26) →
    insertPath (insertPath t p) p = insertPath t p
  | [], .mk e cs, _, _ => rfl
  | i :: rest, .mk e cs, h, hp => by
    have hcs := TrieNode.wf_mk h
    have hi : i < cs.size := by rw [hcs.1]; exact hp i (List.mem_cons_self _ _)
    have ih := insertPath_idem rest _ (wf_getD hcs.2 i)
      (fun k hk => hp k (List.mem_cons_of_mem _ hk))
    simp only [insertPath, Children.get_set_eq cs i _ hi, Option.getD_some,
      Children.set_set_eq, ih]

theorem insertPath_nil_cons (e : Bool) (cs : Children) (i : Nat) (r : List Nat) :
    insertPath (insertPath (.mk e cs) (i :: r)) [] = insertPath (insertPath (.mk e cs) []) (i :: r) :=
  rfl

theorem insertPath_comm : ∀ (a b : List Nat) (t : TrieNode), t.wf = true →
    (∀ i ∈ a, i < 26) → (∀ i ∈ b, i < 26) →
    insertPath (insertPath t a) b = insertPath (insertPath t b) a
  | [], [], _, _, _, _ => rfl
  | [], j :: rb, .mk e cs, _, _, _ => (insertPath_nil_cons e cs j rb).symm
  | i :: ra, [], .mk e cs, _, _, _ => insertPath_nil_cons e cs i ra
  | i :: ra, j :: rb, .mk e cs, h, ha, hb => by
    have hcs := TrieNode.wf_mk h
    have hi : i < cs.size := by rw [hcs.1]; exact ha i (List.mem_cons_self _ _)
    have hj : j < cs.size := by rw [hcs.1]; exact hb j (List.mem_cons_self _ _)
    by_cases hij : i = j
    · subst hij
      have ih := insertPath_comm ra rb _ (wf_getD hcs.2 i)
        (fun k hk => ha k (List.mem_cons_of_mem _ hk))
        (fun k hk => hb k (List.mem_cons_of_mem _ hk))
      simp only [insertPath, Children.get_set_eq cs i _ hi, Option.getD_some,
        Children.set_set_eq, ih]
    · simp only [insertPath, Children.get_set_ne cs i j _ hij,
        Children.get_set_ne cs j i _ (fun e => hij e.symm)]
      rw [Children.set_set_comm cs i j _ _ hij]

theorem foldl_insertPath_perm {ps qs : List (List Nat)} (h : ps.Perm qs) :
    (∀ p ∈ ps, ∀ i ∈ p, i < 26) → ∀ t : TrieNode, t.wf = true →
    ps.foldl insertPath t = qs.foldl insertPath t := by
  induction h with
  | nil => intro _ _ _; rfl
  | cons x _ ih =>
    intro hv t ht
    simp only [List.foldl_cons]
    exact ih (fun p hp => hv p (List.mem_cons_of_mem _ hp)) _ (wf_insertPath x t ht)
  | swap x y l =>
    intro hv t ht
    simp only [List.foldl_cons]
    rw [insertPath_comm y x t ht (hv y (List.mem_cons_self _ _))
      (hv x (List.mem_cons_of_mem _ (List.mem_cons_self _ _)))]
  | trans h1 _ ih1 ih2 =>
    intro hv t ht
    rw [ih1 hv t ht]
    exact ih2 (fun p hp => hv p (h1.mem_iff.2 hp)) t ht

theorem insertAll_perm {ws vs : List (List Char)} (h : ws.Perm vs)
    (hws : ∀ w ∈ ws, upperWord w) (t : TrieNode) (ht : t.wf = true) :
    insertAll t ws = insertAll t vs := by
  rw [insertAll_eq ws t (fun w hw => inAlphabet_of_upperWord (hws w hw)),
    insertAll_eq vs t (fun w hw => inAlphabet_of_upperWord (hws w (h.mem_iff.2 hw))),
    foldl_insertPath_perm (h.map slots) _ t ht]
  intro p hp
  obtain ⟨w, hw, rfl⟩ := List.mem_map.1 hp
  exact slots_lt (inAlphabet_of_upperWord (hws w hw))

/-! ## The index ranges of main -/

theorem take_flatMap_range (ws : List (List Char)) (q : Nat) : ∀ k : Nat,
    (List.range k).flatMap (fun i => (ws.drop (i * q)).take (i * q + q - i * q)) = ws.take (k * q)
  | 0 => by simp
  | k + 1 => by
    rw [List.range_succ, List.flatMap_append, take_flatMap_range ws q k]
    simp only [List.flatMap_cons, List.flatMap_nil, List.append_nil]
    rw [Nat.add_sub_cancel_left, Nat.succ_mul, List.take_add]

theorem ranges_cover (workers : Nat) (hN : 1 ≤ workers) (ws : List (List Char)) :
    (List.range workers).flatMap (fun i =>
      (ws.drop (rangeStart workers ws.length i)).take
        (rangeEnd workers ws.length i - rangeStart workers ws.length i)) = ws := by
  obtain ⟨m, rfl⟩ : ∃ m, workers = m + 1 := ⟨workers - 1, by omega⟩
  rw [List.range_succ, List.flatMap_append]
  have h1 : (List.range m).flatMap (fun i =>
      (ws.drop (rangeStart (m + 1) ws.length i)).take
        (rangeEnd (m + 1) ws.length i - rangeStart (m + 1) ws.length i))
      = ws.take (m * wordsPerThread (m + 1) ws.length) := by
    rw [← take_flatMap_range ws _ m]
    apply List.flatMap_congr
    intro i hi
    have hi2 : i ≠ m + 1 - 1 := by
      have := List.mem_range.1 hi
      omega
    simp only [rangeStart, rangeEnd, if_neg hi2]
  rw [h1]
  simp only [List.flatMap_cons, List.flatMap_nil, List.append_nil, rangeStart, rangeEnd,
    Nat.add_sub_cancel, if_true]
  have h2 : (ws.drop (m * wordsPerThread (m + 1) ws.length)).take
      (ws.length - m * wordsPerThread (m + 1) ws.length)
      = ws.drop (m * wordsPerThread (m + 1) ws.length) :=
    List.take_of_length_le (by rw [List.length_drop])
  rw [h2, List.take_append_drop]

theorem runWorkers_eq (workers : Nat) (ws : List (List Char)) (hws : ∀ w ∈ ws, upperWord w) :
    ∀ (order : List Nat) (t : TrieNode),
    runWorkers workers ws t order = insertAll t (order.flatMap (fun i =>
      (ws.drop (rangeStart workers ws.length i)).take
        (rangeEnd workers ws.length i - rangeStart workers ws.length i)))
  | [], _ => rfl
  | i :: rest, t => by
    have hsl : ∀ w ∈ (ws.drop (rangeStart workers ws.length i)).take
        (rangeEnd workers ws.length i - rangeStart workers ws.length i), ∀ c ∈ w, inAlphabet c :=
      fun w hw => inAlphabet_of_upperWord
        (hws w (List.mem_of_mem_drop (List.mem_of_mem_take hw)))
    have hrest : ∀ w ∈ rest.flatMap (fun i =>
        (ws.drop (rangeStart workers ws.length i)).take
          (rangeEnd workers ws.length i - rangeStart workers ws.length i)), ∀ c ∈ w, inAlphabet c := by
      intro w hw
      obtain ⟨j, _, hj⟩ := List.mem_flatMap.1 hw
      exact inAlphabet_of_upperWord (hws w (List.mem_of_mem_drop (List.mem_of_mem_take hj)))
    rw [runWorkers, buildTrie, insertAll_eq _ t hsl]
    simp only []
    rw [runWorkers_eq workers ws hws rest, List.flatMap_cons, insertAll_eq _ _ hrest,
      insertAll_eq _ t, List.map_append, List.foldl_append]
    intro w hw
    rcases List.mem_append.1 hw with hw | hw
    · exact hsl w hw
    · exact hrest w hw


theorem wf_walk : ∀ (q : List Char) (t n : TrieNode), t.wf = true →
    t.walk q = .returns (some n) → n.wf = true
  | [], t, n, hw, h => by
    simp only [TrieNode.walk, Outcome.returns.injEq, Option.some.injEq] at h
    rw [← h]; exact hw
  | c :: rest, .mk e cs, n, hw, h => by
    simp only [TrieNode.walk, TrieNode.children] at h
    split at h
    · cases hg : cs.get (CHAR_TO_INDEX (toLatin1 c)).toNat with
      | none => rw [hg] at h; simp at h
      | some d =>
        rw [hg] at h
        exact wf_walk rest d n (Children.wf_get cs _ d (TrieNode.wf_mk hw).2 hg) h
    · exact absurd h (by simp)

theorem sorted_printAutoSuggestions (t : TrieNode) (ht : t.wf = true) (q : List Char)
    (r : List (List Char)) (h : t.printAutoSuggestions q = .returns r) :
    r.Pairwise (List.Lex (fun a b : Char => a < b)) := by
  cases hw : t.walk q with
  | outOfRange i =>
    unfold TrieNode.printAutoSuggestions at h
    rw [hw] at h
    exact absurd h (by simp)
  | returns o =>
    cases o with
    | none =>
      rw [printAutoSuggestions_of_walk_none t q hw] at h
      rw [← Outcome.returns.inj h]
      exact List.Pairwise.nil
    | some n =>
      rw [printAutoSuggestions_of_walk t n q hw] at h
      rw [← Outcome.returns.inj h]
      exact sorted_suggestionsRec n (wf_walk q t n ht hw) q

theorem buildTrie_all (t : TrieNode) (ws : List (List Char)) :
    buildTrie t ws 0 ws.length = insertAll t ws := by
  simp [buildTrie]

/-- C5: insert is idempotent.  For every trie `t` (26 slots per node) and
every word `w` over A-Z, inserting `w` again after `insert(t, w)` leaves the
same trie, so `search` and `printAutoSuggestions` give the same result for
every argument, and no list `printAutoSuggestions` returns holds a word twice. -/
theorem insert_idempotent (t : TrieNode) (ht : t.wf = true) (w : List Char) (hw : upperWord w) :
    (t.insert w).trie.insert w = t.insert w ∧
    (∀ q, ((t.insert w).trie.insert w).trie.search q = (t.insert w).trie.search q) ∧
    (∀ q, ((t.insert w).trie.insert w).trie.printAutoSuggestions q
      = (t.insert w).trie.printAutoSuggestions q) ∧
    (∀ q r, ((t.insert w).trie.insert w).trie.printAutoSuggestions q = .returns r → r.Nodup) := by
  have hv := inAlphabet_of_upperWord hw
  have h1 : (t.insert w).trie.insert w = t.insert w := by
    rw [insert_eq_insertPath w t hv]
    simp only []
    rw [insert_eq_insertPath w _ hv, insertPath_idem _ t ht (slots_lt hv)]
  refine ⟨h1, fun q => by rw [h1], fun q => by rw [h1], ?_⟩
  intro q r hr
  rw [h1, insert_eq_insertPath w t hv] at hr
  exact nodup_of_lex_sorted (sorted_printAutoSuggestions _ (wf_insertPath _ t ht) q r hr)

theorem insert_idempotent_witness :
    ((insertAll TrieNode.new [ "CAT".toList, "CAR".toList ]).trie.insert "CAT".toList).trie.insert
        "CAT".toList
      = (insertAll TrieNode.new [ "CAT".toList, "CAR".toList ]).trie.insert "CAT".toList :=
  (insert_idempotent (insertAll TrieNode.new [ "CAT".toList, "CAR".toList ]).trie (by decide)
    "CAT".toList (by decide)).1

/-- C6: the final trie does not depend on insertion order.  For every trie
`t` and words `a`, `b` over A-Z, inserting `a` then `b` gives the same trie as
inserting `b` then `a`; hence for every corpus `ws` over A-Z, inserting the
words in any other order `vs` (any interleaving of the workers' insert calls),
or running the `workers >= 1` ranges of `main` one after another in any
`order`, gives the trie of the single-worker build `buildTrie(0, n)`, with the
same `search` and `printAutoSuggestions` results. -/
theorem insert_order_independent (t : TrieNode) (ht : t.wf = true)
    (a b : List Char) (ha : upperWord a) (hb : upperWord b)
    (ws vs : List (List Char)) (hws : ∀ w ∈ ws, upperWord w) (hperm : vs.Perm ws)
    (workers : Nat) (hN : 1 ≤ workers) (order : List Nat)
    (horder : order.Perm (List.range workers)) :
    (t.insert a).trie.insert b = (t.insert b).trie.insert a ∧
    insertAll t vs = buildTrie t ws 0 ws.length ∧
    runWorkers workers ws t order = buildTrie t ws 0 ws.length ∧
    (∀ q, (runWorkers workers ws t order).trie.search q
        = (buildTrie t ws 0 ws.length).trie.search q ∧
      (runWorkers workers ws t order).trie.printAutoSuggestions q
        = (buildTrie t ws 0 ws.length).trie.printAutoSuggestions q ∧
      (insertAll t vs).trie.search q = (buildTrie t ws 0 ws.length).trie.search q ∧
      (insertAll t vs).trie.printAutoSuggestions q
        = (buildTrie t ws 0 ws.length).trie.printAutoSuggestions q) := by
  have hva := inAlphabet_of_upperWord ha
  have hvb := inAlphabet_of_upperWord hb
  have h1 : (t.insert a).trie.insert b = (t.insert b).trie.insert a := by
    rw [insert_eq_insertPath a t hva, insert_eq_insertPath b t hvb]
    simp only []
    rw [insert_eq_insertPath b _ hvb, insert_eq_insertPath a _ hva,
      insertPath_comm _ _ t ht (slots_lt hva) (slots_lt hvb)]
  have h2 : insertAll t vs = buildTrie t ws 0 ws.length := by
    rw [buildTrie_all]
    exact (insertAll_perm hperm.symm hws t ht).symm
  have h3 : runWorkers workers ws t order = buildTrie t ws 0 ws.length := by
    rw [buildTrie_all, runWorkers_eq workers ws hws order t]
    have hp := horder.flatMap_right (fun i =>
      (ws.drop (rangeStart workers ws.length i)).take
        (rangeEnd workers ws.length i - rangeStart workers ws.length i))
    rw [ranges_cover workers hN ws] at hp
    exact (insertAll_perm hp.symm hws t ht).symm
  refine ⟨h1, h2, h3, fun q => ?_⟩
  rw [h2, h3]
  exact ⟨rfl, rfl, rfl, rfl⟩

theorem insert_order_independent_witness :
    runWorkers 3 [ "DOG".toList, "CAT".toList, "CAR".toList, "DO".toList ] TrieNode.new [2, 0, 1]
      = buildTrie TrieNode.new [ "DOG".toList, "CAT".toList, "CAR".toList, "DO".toList ] 0
          [ "DOG".toList, "CAT".toList, "CAR".toList, "DO".toList ].length :=
  (insert_order_independent TrieNode.new (by decide) "CAT".toList "CAR".toList (by decide)
    (by decide) [ "DOG".toList, "CAT".toList, "CAR".toList, "DO".toList ]
    [ "DO".toList, "CAR".toList, "DOG".toList, "CAT".toList ] (by decide) (by decide)
    3 (by decide) [2, 0, 1] (by decide)).2.2.1

/-- C7: for every corpus size `n`, the 4 index ranges computed in `main` start
at 0, end at `n`, are contiguous and pairwise disjoint, and every index below
`n` lies in exactly one of them; the first three have size `n / 4` and the
last has size `n - 3 * (n / 4)`. -/
theorem ranges_partition (n : Nat) :
    rangeStart numThreadsTmp n 0 = 0 ∧
    rangeEnd numThreadsTmp n 3 = n ∧
    (∀ i, i < 3 → rangeEnd numThreadsTmp n i = rangeStart numThreadsTmp n (i + 1)) ∧
    (∀ i, i < 4 → rangeStart numThreadsTmp n i ≤ rangeEnd numThreadsTmp n i ∧
      rangeEnd numThreadsTmp n i ≤ n) ∧
    (∀ i, i < 3 → rangeEnd numThreadsTmp n i - rangeStart numThreadsTmp n i = n / 4) ∧
    rangeEnd numThreadsTmp n 3 - rangeStart numThreadsTmp n 3 = n - 3 * (n / 4) ∧
    (∀ i j k, i < 4 → j < 4 →
      rangeStart numThreadsTmp n i ≤ k → k < rangeEnd numThreadsTmp n i →
      rangeStart numThreadsTmp n j ≤ k → k < rangeEnd numThreadsTmp n j → i = j) ∧
    (∀ k, k < n → ∃ i, i < 4 ∧
      rangeStart numThreadsTmp n i ≤ k ∧ k < rangeEnd numThreadsTmp n i) := by
  simp only [rangeStart, rangeEnd, wordsPerThread, numThreadsTmp]
  refine ⟨by simp, by simp, ?_, ?_, ?_, ?_, ?_, ?_⟩
  · intro i hi
    interval_cases i <;> simp <;> omega
  · intro i hi
    interval_cases i <;> simp <;> omega
  · intro i hi
    interval_cases i <;> simp
  · simp
  · intro i j k hi hj
    interval_cases i <;> interval_cases j <;> simp <;> omega
  · intro k hk
    by_cases h0 : k < n / 4
    · exact ⟨0, by simp; omega⟩
    · by_cases h1 : k < 2 * (n / 4)
      · exact ⟨1, by simp; omega⟩
      · by_cases h2 : k < 3 * (n / 4)
        · exact ⟨2, by simp; omega⟩
        · exact ⟨3, by simp; omega⟩


/-! ## Characters outside the alphabet -/

theorem inAlphabet_of_isLetter {c : Char} (h : isLetter c) : inAlphabet c :=
  (inAlphabet_iff c).2 h

theorem not_inAlphabet_of_not_isLetter {c : Char} (h : ¬ isLetter c) :
    ¬ (0 ≤ CHAR_TO_INDEX c ∧ CHAR_TO_INDEX c < 26) :=
  fun hc => h ((inAlphabet_iff c).1 hc)

theorem insert_stops : ∀ (pre : List Char) (c : Char) (rest : List Char) (t : TrieNode),
    (∀ d ∈ pre, inAlphabet d) → ¬ inAlphabet c →
    t.insert (pre ++ c :: rest) = ⟨extendPath t (slots pre), some (CHAR_TO_INDEX c)⟩
  | [], c, rest, .mk e cs, _, hc => by
    have hc2 : ¬ (0 ≤ CHAR_TO_INDEX c ∧ CHAR_TO_INDEX c < 26) := hc
    simp only [List.nil_append, TrieNode.insert, if_neg hc2]
    rfl
  | d :: pre, c, rest, .mk e cs, h, hc => by
    have hd : 0 ≤ CHAR_TO_INDEX d ∧ CHAR_TO_INDEX d < 26 := h d (List.mem_cons_self _ _)
    have ih := insert_stops pre c rest ((cs.get (slot d)).getD TrieNode.new)
      (fun x hx => h x (List.mem_cons_of_mem _ hx)) hc
    simp only [slot] at ih
    show (TrieNode.mk e cs).insert (d :: (pre ++ c :: rest)) = _
    simp only [TrieNode.insert, if_pos hd, ih, slots, List.map_cons, extendPath, slot]

theorem extendPath_nil (t : TrieNode) : extendPath t [] = t := by
  cases t; rfl

theorem wf_extendPath : ∀ (p : List Nat) (t : TrieNode), t.wf = true →
    (extendPath t p).wf = true
  | [], t, h => by rw [extendPath_nil]; exact h
  | i :: rest, .mk e cs, h => by
    have hcs := TrieNode.wf_mk h
    have hc := wf_extendPath rest _ (wf_getD hcs.2 i)
    simp [extendPath, TrieNode.wf, ALPHABET_SIZE, Children.size_set, hcs.1,
      Children.wf_set cs i _ hcs.2 hc]

theorem lookup_extendPath : ∀ (p q : List Nat) (t : TrieNode), t.wf = true →
    (∀ i ∈ p, i < 26) → lookup (extendPath t p) q = lookup t q
  | [], _, t, _, _ => by rw [extendPath_nil]
  | _ :: _, [], .mk _ _, _, _ => rfl
  | i :: rest, j :: r, .mk e cs, h, hp => by
    have hcs := TrieNode.wf_mk h
    have hi : i < cs.size := by rw [hcs.1]; exact hp i (List.mem_cons_self _ _)
    have ih := lookup_extendPath rest r _ (wf_getD hcs.2 i)
      (fun k hk => hp k (List.mem_cons_of_mem _ hk))
    by_cases hji : j = i
    · subst hji
      simp only [extendPath, lookup_cons, TrieNode.children, Children.get_set_eq cs j _ hi, ih]
      cases hg : cs.get j with
      | none => simp [lookup_new]
      | some c => simp
    · simp only [extendPath, lookup_cons, TrieNode.children,
        Children.get_set_ne cs i j _ (fun e => hji e.symm)]

theorem descend_extendPath : ∀ (p : List Nat) (t : TrieNode), t.wf = true →
    (∀ i ∈ p, i < 26) → ∃ n, descend (extendPath t p) p = some n
  | [], t, _, _ => ⟨t, by rw [extendPath_nil]; rfl⟩
  | i :: rest, .mk e cs, h, hp => by
    have hcs := TrieNode.wf_mk h
    have hi : i < cs.size := by rw [hcs.1]; exact hp i (List.mem_cons_self _ _)
    obtain ⟨n, hn⟩ := descend_extendPath rest _ (wf_getD hcs.2 i)
      (fun k hk => hp k (List.mem_cons_of_mem _ hk))
    exact ⟨n, by simp only [extendPath, descend, TrieNode.children,
      Children.get_set_eq cs i _ hi, hn]⟩

/-- C8 (as amended): `insert` validates nothing and reports nothing.  For a
word whose first character that is not an ASCII letter is `c`, after the
letters `pre`, it walks `pre`, creating the missing nodes, then computes
`CHAR_TO_INDEX c` outside 0..25 and addresses `children[]` with it; by then
the nodes along `pre` exist (the walk along `pre` succeeds).  The source does
not stop at that access, and nothing is stated about the rest of the call. -/
theorem insert_invalid_symbol (t : TrieNode) (ht : t.wf = true) (pre : List Char) (c : Char)
    (rest : List Char) (hpre : ∀ d ∈ pre, isLetter d) (hc : ¬ isLetter c) :
    (t.insert (pre ++ c :: rest)).outOfRange = some (CHAR_TO_INDEX c) ∧
    ¬ (0 ≤ CHAR_TO_INDEX c ∧ CHAR_TO_INDEX c < 26) ∧
    (∃ n, (t.insert (pre ++ c :: rest)).trie.walk pre = .returns (some n)) := by
  have hv : ∀ d ∈ pre, inAlphabet d := fun d hd => inAlphabet_of_isLetter (hpre d hd)
  have hstop := insert_stops pre c rest t hv (not_inAlphabet_of_not_isLetter hc)
  refine ⟨by rw [hstop], not_inAlphabet_of_not_isLetter hc, ?_⟩
  obtain ⟨n, hn⟩ := descend_extendPath (slots pre) t ht (slots_lt hv)
  exact ⟨n, by rw [hstop, walk_eq_descend pre _ hv, hn]⟩

theorem insert_invalid_symbol_witness :
    (TrieNode.new.insert ("CA".toList ++ '4' :: "T".toList)).outOfRange = some (CHAR_TO_INDEX '4') ∧
    (∃ n, (TrieNode.new.insert ("CA".toList ++ '4' :: "T".toList)).trie.walk "CA".toList
      = .returns (some n)) :=
  have h := insert_invalid_symbol TrieNode.new (by decide) "CA".toList '4' "T".toList
    (by decide) (by decide)
  ⟨h.1, h.2.2⟩

/-- C8 (counterexample): `insert("C4T")` on the empty trie reports nothing: it
addresses `children[-13]`; and the trie is not left unchanged: before that
access the node for `C`, absent from the empty trie, has been created. -/
theorem insert_invalid_symbol_counterexample :
    (TrieNode.new.insert "C4T".toList).outOfRange = some (-13) ∧
    TrieNode.new.walk "C".toList = .returns none ∧
    (∃ n, (TrieNode.new.insert "C4T".toList).trie.walk "C".toList = .returns (some n)) ∧
    (TrieNode.new.insert "C4T".toList).trie ≠ TrieNode.new :=
  ⟨by decide, by decide, ⟨TrieNode.new, by decide⟩, by decide⟩


/-- C9 (as amended): for every key made of ASCII letters, upper or lower
case, every index that `insert`, `search` and `printAutoSuggestions` compute
with `CHAR_TO_INDEX` lies in 0..25 and the three calls stay inside
`children[]`.  Nothing is checked before the lookup: for every other
character the index lies outside 0..25, and `insert` uses it as it is. -/
theorem index_in_range (t : TrieNode) (k : List Char) (hk : ∀ c ∈ k, isLetter c) :
    (∀ c ∈ k, 0 ≤ CHAR_TO_INDEX c ∧ CHAR_TO_INDEX c < 26 ∧
      CHAR_TO_INDEX (toLatin1 c) = CHAR_TO_INDEX c) ∧
    (t.insert k).outOfRange = none ∧
    (∃ b, t.search k = .returns b) ∧
    (∃ r, t.printAutoSuggestions k = .returns r) ∧
    (∀ c, ¬ isLetter c → ¬ (0 ≤ CHAR_TO_INDEX c ∧ CHAR_TO_INDEX c < 26) ∧
      (t.insert (k ++ [c])).outOfRange = some (CHAR_TO_INDEX c)) := by
  have hv : ∀ c ∈ k, inAlphabet c := fun c hc => inAlphabet_of_isLetter (hk c hc)
  refine ⟨?_, ?_, ?_, ?_, ?_⟩
  · intro c hc
    exact ⟨(hv c hc).1, (hv c hc).2, by rw [toLatin1_of_inAlphabet (hv c hc)]⟩
  · rw [insert_eq_insertPath k t hv]
  · exact ⟨_, search_eq_lookup k t hv⟩
  · have hw := walk_eq_descend k t hv
    cases hd : descend t (slots k) with
    | none =>
      rw [hd] at hw
      exact ⟨_, printAutoSuggestions_of_walk_none t k hw⟩
    | some n =>
      rw [hd] at hw
      exact ⟨_, printAutoSuggestions_of_walk t n k hw⟩
  · intro c hc
    refine ⟨not_inAlphabet_of_not_isLetter hc, ?_⟩
    rw [insert_stops k c [] t hv (not_inAlphabet_of_not_isLetter hc)]

theorem index_in_range_witness :
    (∃ b, (insertAll TrieNode.new [ "CAT".toList ]).trie.search "cat".toList = .returns b) ∧
    (∃ r, (insertAll TrieNode.new [ "CAT".toList ]).trie.printAutoSuggestions "cat".toList
      = .returns r) :=
  have h := index_in_range (insertAll TrieNode.new [ "CAT".toList ]).trie "cat".toList (by decide)
  ⟨h.2.2.1, h.2.2.2.1⟩

/-- C9 (counterexample): for the key `4` the index is -13, and `search`,
`insert` and `printAutoSuggestions` address `children[-13]`. -/
theorem index_in_range_counterexample :
    CHAR_TO_INDEX '4' = -13 ∧
    TrieNode.new.search "4".toList = .outOfRange (-13) ∧
    (TrieNode.new.insert "4".toList).outOfRange = some (-13) ∧
    TrieNode.new.printAutoSuggestions "4".toList = .outOfRange (-13) := by
  decide

/-! ## Queries in either case -/

theorem QChar_slot_letter {c : Char} (h : isLetter c) :
    QChar (slot c) = Char.ofNat (toupper (c.toNat : Int)).toNat := by
  unfold QChar slot CHAR_TO_INDEX
  congr 1
  unfold isLetter at h
  unfold toupper
  split <;> omega

theorem letters_slots_letter : ∀ (q : List Char), (∀ c ∈ q, isLetter c) →
    letters (slots q) = upperCase q
  | [], _ => rfl
  | c :: q, h => by
    have ih := letters_slots_letter q (fun d hd => h d (List.mem_cons_of_mem _ hd))
    simp only [letters, slots, upperCase, List.map_cons] at ih ⊢
    rw [ih, QChar_slot_letter (h c (List.mem_cons_self _ _))]

theorem slots_upperCase (q : List Char) (h : ∀ c ∈ q, isLetter c) :
    slots (upperCase q) = slots q := by
  rw [← letters_slots_letter q h,
    slots_letters _ (slots_lt (fun c hc => inAlphabet_of_isLetter (h c hc)))]

/-- The enumeration for a query of ASCII letters on the trie built from a
corpus over `A`..`Z`: it returns the query as typed followed by the remainder
of every corpus word that starts with the upper-cased query. -/
theorem suggestions_letters (ws : List (List Char)) (q : List Char)
    (hws : ∀ w ∈ ws, upperWord w) (hq : ∀ c ∈ q, isLetter c) :
    ∃ r, (insertAll TrieNode.new ws).trie.printAutoSuggestions q = .returns r ∧
      ∀ x, x ∈ r ↔ ∃ s, upperCase q ++ s ∈ ws ∧ x = q ++ s := by
  have hv : ∀ c ∈ q, inAlphabet c := fun c hc => inAlphabet_of_isLetter (hq c hc)
  have hwf := (wf_insertAll ws hws).1
  have hwalk := walk_eq_descend q (insertAll TrieNode.new ws).trie hv
  have hlk := lookup_insertAll ws hws
  have hmem : ∀ s, upperCase q ++ s ∈ ws → slots q ++ slots s ∈ ws.map slots := by
    intro s hs
    exact List.mem_map.2 ⟨_, hs, by rw [slots_append, slots_upperCase q hq]⟩
  cases hd : descend (insertAll TrieNode.new ws).trie (slots q) with
  | none =>
    rw [hd] at hwalk
    refine ⟨[], printAutoSuggestions_of_walk_none _ _ hwalk, ?_⟩
    intro x
    constructor
    · intro h; exact absurd h (List.not_mem_nil _)
    · rintro ⟨s, hs, _⟩
      exfalso
      have h1 := hlk (slots q ++ slots s)
      rw [lookup_append, hd] at h1
      simp [hmem s hs] at h1
  | some n =>
    rw [hd] at hwalk
    have hn := wf_descend _ _ n hwf hd
    refine ⟨n.suggestionsRec q [], printAutoSuggestions_of_walk _ n q hwalk, ?_⟩
    intro x
    rw [mem_suggestionsRec]
    constructor
    · rintro ⟨p, hp, rfl⟩
      have h1 := hlk (slots q ++ p)
      rw [lookup_append, hd] at h1
      simp only [] at h1
      rw [hp] at h1
      obtain ⟨v, hv2, hvq⟩ := List.mem_map.1 (of_decide_eq_true h1.symm)
      refine ⟨letters p, ?_, rfl⟩
      have : v = upperCase q ++ letters p := by
        rw [← letters_slots v (hws v hv2), hvq, letters_append, letters_slots_letter q hq]
      rw [← this]
      exact hv2
    · rintro ⟨s, hs, rfl⟩
      have hsu : upperWord s := fun c hc => hws _ hs c (List.mem_append_right _ hc)
      refine ⟨slots s, ?_, by rw [letters_slots s hsu]⟩
      have h1 := hlk (slots q ++ slots s)
      rw [lookup_append, hd] at h1
      simp only [] at h1
      rw [h1]
      exact decide_eq_true (hmem s hs)

/-- C10 (as amended): on a trie built from words over A-Z, for every query
text made of ASCII letters (upper or lower case), `printAutoSuggestions`
returns, and the list is empty exactly when no stored word starts with the
upper-cased text; in particular when the text is longer than every stored word
(ZZZZZ against 4-letter words). -/
theorem printAutoSuggestions_empty_iff (ws : List (List Char)) (hws : ∀ w ∈ ws, upperWord w)
    (q : List Char) (hq : ∀ c ∈ q, isLetter c) :
    ∃ r, (insertAll TrieNode.new ws).trie.printAutoSuggestions q = .returns r ∧
      (r = [] ↔ ¬ ∃ w ∈ ws, upperCase q <+: w) ∧
      ((∀ w ∈ ws, w.length < q.length) → r = []) := by
  obtain ⟨r, hr, hmem⟩ := suggestions_letters ws q hws hq
  have hiff : r = [] ↔ ¬ ∃ w ∈ ws, upperCase q <+: w := by
    constructor
    · rintro rfl ⟨w, hw, s, rfl⟩
      exact absurd ((hmem (q ++ s)).2 ⟨s, hw, rfl⟩) (List.not_mem_nil _)
    · intro h
      apply List.eq_nil_iff_forall_not_mem.2
      intro x hx
      obtain ⟨s, hs, _⟩ := (hmem x).1 hx
      exact h ⟨_, hs, List.prefix_append _ _⟩
  refine ⟨r, hr, hiff, ?_⟩
  intro hlen
  apply hiff.2
  rintro ⟨w, hw, hpre⟩
  have h1 := hpre.length_le
  have h2 := hlen w hw
  simp only [upperCase, List.length_map] at h1
  omega

theorem printAutoSuggestions_empty_iff_witness :
    ∃ r, (insertAll TrieNode.new [ "AAAA".toList, "ZZZZ".toList ]).trie.printAutoSuggestions
        "ZZZZZ".toList = .returns r ∧
      (r = [] ↔ ¬ ∃ w ∈ [ "AAAA".toList, "ZZZZ".toList ], upperCase "ZZZZZ".toList <+: w) ∧
      ((∀ w ∈ [ "AAAA".toList, "ZZZZ".toList ], w.length < "ZZZZZ".toList.length) → r = []) :=
  printAutoSuggestions_empty_iff [ "AAAA".toList, "ZZZZ".toList ] (by decide) "ZZZZZ".toList
    (by decide)

/-- C10 (counterexample): the query `ca` holds no upper-case letter, and on
the trie of `CAT` it matches: the list returned is `caT`, not the empty list. -/
theorem printAutoSuggestions_lower_counterexample :
    upperWord "CAT".toList ∧ (∃ c ∈ "ca".toList, ¬ isUpper c) ∧
    (insertAll TrieNode.new [ "CAT".toList ]).trie.printAutoSuggestions "ca".toList
      = .returns [ "caT".toList ] ∧
    (insertAll TrieNode.new [ "CAT".toList ]).trie.printAutoSuggestions "ca".toList
      ≠ .returns [] := by
  decide


/-! ## Frame of insert -/

/-- C16: insert changes the membership of the inserted word only.  For every
trie `t` (26 slots per node) and all words `w`, `v` over A-Z with `v` different
from `w`, `search v` on `insert(t, w)` equals `search v` on `t`; and no word
over A-Z that `search` finds before the insert is lost by it. -/
theorem insert_frame (t : TrieNode) (ht : t.wf = true) (w v : List Char)
    (hw : upperWord w) (hv : upperWord v) (hne : v ≠ w) :
    (t.insert w).trie.search v = t.search v ∧
    (∀ u, upperWord u → t.search u = .returns true →
      (t.insert w).trie.search u = .returns true) := by
  have hw2 := inAlphabet_of_upperWord hw
  have key : ∀ u, upperWord u → (t.insert w).trie.search u
      = .returns (decide (slots u = slots w) || lookup t (slots u)) := by
    intro u hu
    rw [insert_eq_insertPath w t hw2, search_eq_lookup u _ (inAlphabet_of_upperWord hu),
      lookup_insertPath _ _ t ht (slots_lt hw2)]
  constructor
  · rw [key v hv, search_eq_lookup v t (inAlphabet_of_upperWord hv),
      decide_eq_false (fun h => hne (slots_injective hv hw h)), Bool.false_or]
  · intro u hu hfound
    rw [search_eq_lookup u t (inAlphabet_of_upperWord hu)] at hfound
    rw [key u hu, Outcome.returns.inj hfound, Bool.or_true]

theorem insert_frame_witness :
    ((insertAll TrieNode.new [ "CAT".toList ]).trie.insert "CATALOG".toList).trie.search
        "CAT".toList
      = (insertAll TrieNode.new [ "CAT".toList ]).trie.search "CAT".toList :=
  (insert_frame (insertAll TrieNode.new [ "CAT".toList ]).trie (by decide) "CATALOG".toList
    "CAT".toList (by decide) (by decide) (by decide)).1

/-- C17: the case split of `printAutoSuggestions` is redundant.  For every
trie and every prefix `p` whose walk succeeds and reaches node `n`,
`printAutoSuggestions p` returns the list that `n.suggestionsRec(p, [])`
produces, in each of the cases (word and last node, not last node, neither). -/
theorem printAutoSuggestions_eq_suggestionsRec (t n : TrieNode) (p : List Char)
    (h : t.walk p = .returns (some n)) :
    t.printAutoSuggestions p = .returns (n.suggestionsRec p []) ∧
    (n.isWordEnd = true → n.isLastNode = true → n.suggestionsRec p [] = [p]) ∧
    (n.isWordEnd = false → n.isLastNode = true → n.suggestionsRec p [] = []) := by
  refine ⟨printAutoSuggestions_of_walk t n p h, ?_, ?_⟩
  · intro hw hl
    rw [suggestionsRec_of_isLastNode n p [] hl, hw]
    rfl
  · intro hw hl
    rw [suggestionsRec_of_isLastNode n p [] hl, hw]
    rfl

theorem printAutoSuggestions_eq_suggestionsRec_witness :
    (insertAll TrieNode.new [ "CAT".toList, "CA".toList ]).trie.printAutoSuggestions "CAT".toList
      = .returns ((TrieNode.new.insert []).trie.suggestionsRec "CAT".toList []) :=
  (printAutoSuggestions_eq_suggestionsRec
    (insertAll TrieNode.new [ "CAT".toList, "CA".toList ]).trie (TrieNode.new.insert []).trie
    "CAT".toList (by decide)).1


/-! ## The two traversals -/

mutual
theorem Console.suggestionsRec_eq : ∀ (t : TrieNode) (pre : List Char) (out : List (List Char)),
    Console.suggestionsRec t pre out = t.suggestionsRec pre out
  | .mk e cs, pre, out => by
    simp only [Console.suggestionsRec, TrieNode.suggestionsRec]
    rw [Console.suggestionsLoop_eq cs 0 pre]
theorem Console.suggestionsLoop_eq : ∀ (cs : Children) (i : Nat) (pre : List Char)
    (out : List (List Char)),
    Console.suggestionsLoop cs i pre out = (pre, cs.suggestionsLoop i pre out)
  | .nil, _, _, _ => rfl
  | .null rest, i, pre, out => by
    simp only [Console.suggestionsLoop, Children.suggestionsLoop]
    exact Console.suggestionsLoop_eq rest (i + 1) pre out
  | .node c rest, i, pre, out => by
    simp only [Console.suggestionsLoop, Children.suggestionsLoop, List.dropLast_concat]
    rw [Console.suggestionsLoop_eq rest (i + 1) pre, Console.suggestionsRec_eq c]
    rfl
end

/-- C18: the two traversals agree.  For every trie and every starting prefix,
the lines that the console `suggestionsRec` writes (one string extended with
`push_back` and restored with `pop_back` around each recursive call) are the
entries that the GUI `suggestionsRec` appends (a fresh `nextPrefix` per child),
in the same order; the same holds from any earlier output. -/
theorem traversals_agree (t : TrieNode) (pre : List Char) (out : List (List Char)) :
    Console.suggestionsRec t pre [] = t.suggestionsRec pre [] ∧
    Console.suggestionsRec t pre out = t.suggestionsRec pre out :=
  ⟨Console.suggestionsRec_eq t pre [], Console.suggestionsRec_eq t pre out⟩


/-! ## Keys in lower case -/

theorem upperWord_upperCase (k : List Char) (h : ∀ c ∈ k, isLetter c) :
    upperWord (upperCase k) := by
  rw [← letters_slots_letter k h]
  exact upperWord_letters (slots_lt (fun c hc => inAlphabet_of_isLetter (h c hc)))

theorem suffix_upper_of_printAutoSuggestions (t : TrieNode) (ht : t.wf = true) (p : List Char)
    (r : List (List Char)) (h : t.printAutoSuggestions p = .returns r) :
    ∀ x ∈ r, ∃ s, x = p ++ s ∧ upperWord s := by
  cases hw : t.walk p with
  | outOfRange i =>
    unfold TrieNode.printAutoSuggestions at h
    rw [hw] at h
    exact absurd h (by simp)
  | returns o =>
    cases o with
    | none =>
      rw [printAutoSuggestions_of_walk_none t p hw] at h
      rw [← Outcome.returns.inj h]
      intro x hx
      exact absurd hx (List.not_mem_nil _)
    | some n =>
      rw [printAutoSuggestions_of_walk t n p hw] at h
      rw [← Outcome.returns.inj h]
      intro x hx
      obtain ⟨q, hq, rfl⟩ := (mem_suggestionsRec n p x).1 hx
      exact ⟨letters q, rfl, upperWord_letters (lookup_lt q n (wf_walk p t n ht hw) hq)⟩

theorem printAutoSuggestions_returns (t : TrieNode) (p : List Char) (hp : ∀ c ∈ p, isLetter c) :
    ∃ r, t.printAutoSuggestions p = .returns r := by
  have hw := walk_eq_descend p t (fun c hc => inAlphabet_of_isLetter (hp c hc))
  cases hd : descend t (slots p) with
  | none =>
    rw [hd] at hw
    exact ⟨_, printAutoSuggestions_of_walk_none t p hw⟩
  | some n =>
    rw [hd] at hw
    exact ⟨_, printAutoSuggestions_of_walk t n p hw⟩

/-- C19: insert and search depend on a key only through its upper-cased
form.  For every trie `t` (26 slots per node) and every key `k` of ASCII
letters, `insert(t, k) = insert(t, toupper(k))` and
`search(t, k) = search(t, toupper(k))`; after `insert(t, k)` the upper-cased
key is found and is listed by the root enumeration; and for a prefix `p` of
ASCII letters every string `printAutoSuggestions(p)` returns is `p` as typed
followed by upper-case letters. -/
theorem keys_fold_to_upper (t : TrieNode) (ht : t.wf = true) (k p : List Char)
    (hk : ∀ c ∈ k, isLetter c) (hp : ∀ c ∈ p, isLetter c) :
    t.insert k = t.insert (upperCase k) ∧
    t.search k = t.search (upperCase k) ∧
    (t.insert k).trie.search (upperCase k) = .returns true ∧
    upperCase k ∈ (t.insert k).trie.suggestionsRec [] [] ∧
    (∃ r, t.printAutoSuggestions p = .returns r ∧
      ∀ x ∈ r, ∃ s, x = p ++ s ∧ upperWord s) := by
  have hv : ∀ c ∈ k, inAlphabet c := fun c hc => inAlphabet_of_isLetter (hk c hc)
  have hu := upperWord_upperCase k hk
  have hvu := inAlphabet_of_upperWord hu
  have hlk : lookup (insertPath t (slots k)) (slots k) = true := by
    rw [lookup_insertPath _ _ t ht (slots_lt hv)]
    simp
  refine ⟨?_, ?_, ?_, ?_, ?_⟩
  · rw [insert_eq_insertPath k t hv, insert_eq_insertPath _ t hvu, slots_upperCase k hk]
  · rw [search_eq_lookup k t hv, search_eq_lookup _ t hvu, slots_upperCase k hk]
  · rw [insert_eq_insertPath k t hv, search_eq_lookup _ _ hvu, slots_upperCase k hk, hlk]
  · rw [insert_eq_insertPath k t hv, mem_suggestionsRec]
    exact ⟨slots k, hlk, by rw [letters_slots_letter k hk, List.nil_append]⟩
  · obtain ⟨r, hr⟩ := (printAutoSuggestions_returns t p hp)
    exact ⟨r, hr, suffix_upper_of_printAutoSuggestions t ht p r hr⟩

theorem keys_fold_to_upper_witness :
    TrieNode.new.insert "cat".toList = TrieNode.new.insert (upperCase "cat".toList) ∧
    TrieNode.new.search "cat".toList = TrieNode.new.search (upperCase "cat".toList) ∧
    (TrieNode.new.insert "cat".toList).trie.search (upperCase "cat".toList) = .returns true ∧
    upperCase "cat".toList ∈ (TrieNode.new.insert "cat".toList).trie.suggestionsRec [] [] ∧
    (∃ r, TrieNode.new.printAutoSuggestions "ca".toList = .returns r ∧
      ∀ x ∈ r, ∃ s, x = "ca".toList ++ s ∧ upperWord s) :=
  keys_fold_to_upper TrieNode.new (by decide) "cat".toList "ca".toList (by decide) (by decide)


/-! ## The generated corpus -/

theorem corpus_eq_wordsOver : corpus = wordsOver 4 := by
  simp [corpus, upperLetters, wordsOver, List.flatMap_map, List.map_flatMap, QChar,
    Function.comp_def]

theorem length_flatMap_range {α : Type} (f : Nat → List α) (m : Nat)
    (hf : ∀ a, (f a).length = m) : ∀ n : Nat, ((List.range n).flatMap f).length = n * m
  | 0 => by simp
  | n + 1 => by
    rw [List.range_succ, List.flatMap_append, List.length_append,
      length_flatMap_range f m hf n]
    simp [hf, Nat.succ_mul]

theorem getElem?_flatMap_range {α : Type} (f : Nat → List α) (m : Nat)
    (hf : ∀ a, (f a).length = m) : ∀ (n i : Nat), i < n * m →
    ((List.range n).flatMap f)[i]? = (f (i / m))[i % m]?
  | 0, i, h => by simp at h
  | n + 1, i, h => by
    have hm : 0 < m := by
      rcases Nat.eq_zero_or_pos m with h0 | h0
      · subst h0; simp at h
      · exact h0
    rw [List.range_succ, List.flatMap_append]
    by_cases hi : i < n * m
    · rw [List.getElem?_append_left (by rw [length_flatMap_range f m hf n]; exact hi)]
      exact getElem?_flatMap_range f m hf n i hi
    · have hle : n * m ≤ i := Nat.le_of_not_lt hi
      rw [List.getElem?_append_right (by rw [length_flatMap_range f m hf n]; exact hle),
        length_flatMap_range f m hf n]
      simp only [List.flatMap_cons, List.flatMap_nil, List.append_nil]
      have h1 : i / m = n := by
        apply Nat.div_eq_of_lt_le
        · rw [Nat.mul_comm] at hle; rw [Nat.mul_comm]; exact hle
        · rw [Nat.succ_mul] at h; rw [Nat.succ_mul]; exact h
      have h2 : i % m = i - n * m := by
        have := Nat.div_add_mod i m
        rw [h1] at this
        rw [Nat.mul_comm] at this
        omega
      rw [h1, h2]

theorem length_wordsOver : ∀ k : Nat, (wordsOver k).length = 26 ^ k
  | 0 => rfl
  | k + 1 => by
    rw [wordsOver, length_flatMap_range _ (26 ^ k) (fun a => by
      rw [List.length_map, length_wordsOver k]), Nat.pow_succ, Nat.mul_comm]

theorem getElem?_wordsOver : ∀ (k i : Nat), i < 26 ^ k →
    (wordsOver k)[i]? = some (wordAt k i)
  | 0, i, h => by
    have : i = 0 := by simpa using h
    subst this
    rfl
  | k + 1, i, h => by
    have hpos : 0 < 26 ^ k := Nat.pow_pos (by decide)
    rw [wordsOver, getElem?_flatMap_range _ (26 ^ k) (fun a => by
      rw [List.length_map, length_wordsOver k]) 26 i (by rw [Nat.pow_succ, Nat.mul_comm] at h; exact h),
      List.getElem?_map, getElem?_wordsOver k (i % 26 ^ k) (Nat.mod_lt _ hpos)]
    rfl

theorem mem_wordsOver : ∀ (k : Nat) (w : List Char),
    w ∈ wordsOver k ↔ (w.length = k ∧ upperWord w)
  | 0, w => by
    simp only [wordsOver, List.mem_singleton, List.length_eq_zero]
    constructor
    · rintro rfl
      exact ⟨rfl, fun c hc => absurd hc (List.not_mem_nil c)⟩
    · exact fun h => h.1
  | k + 1, w => by
    simp only [wordsOver, List.mem_flatMap, List.mem_range, List.mem_map]
    constructor
    · rintro ⟨a, ha, v, hv, rfl⟩
      have ih := (mem_wordsOver k v).1 hv
      refine ⟨by simp [ih.1], ?_⟩
      intro c hc
      rcases List.mem_cons.1 hc with rfl | hc
      · exact isUpper_QChar ha
      · exact ih.2 c hc
    · rintro ⟨hlen, hup⟩
      cases w with
      | nil => simp at hlen
      | cons c v =>
        have hc := hup c (List.mem_cons_self _ _)
        refine ⟨slot c, slot_lt (inAlphabet_of_isUpper hc), v, ?_, by rw [QChar_slot hc]⟩
        exact (mem_wordsOver k v).2
          ⟨by simpa using hlen, fun d hd => hup d (List.mem_cons_of_mem _ hd)⟩

theorem sorted_wordsOver : ∀ k : Nat,
    (wordsOver k).Pairwise (List.Lex (fun a b : Char => a < b))
  | 0 => by simp [wordsOver]
  | k + 1 => by
    rw [wordsOver, List.pairwise_flatMap]
    constructor
    · intro a _
      rw [List.pairwise_map]
      exact (sorted_wordsOver k).imp (fun h => List.Lex.cons h)
    · refine (List.pairwise_lt_range 26).imp_of_mem ?_
      intro a b _ hb hab x hx y hy
      obtain ⟨v, _, rfl⟩ := List.mem_map.1 hx
      obtain ⟨u, _, rfl⟩ := List.mem_map.1 hy
      exact List.Lex.rel (QChar_lt hab (List.mem_range.1 hb))

theorem upperWord_of_mem_corpus : ∀ w ∈ corpus, upperWord w := by
  intro w hw
  rw [corpus_eq_wordsOver] at hw
  exact ((mem_wordsOver 4 w).1 hw).2

theorem length_corpus : corpus.length = 456976 := by
  rw [corpus_eq_wordsOver, length_wordsOver]
  rfl

theorem sorted_corpus : corpus.Pairwise (List.Lex (fun a b : Char => a < b)) := by
  rw [corpus_eq_wordsOver]
  exact sorted_wordsOver 4

theorem getElem?_corpus (i : Nat) (h : i < 456976) : corpus[i]? = some (wordAt 4 i) := by
  rw [corpus_eq_wordsOver]
  exact getElem?_wordsOver 4 i h

/-! ## Building through the ranges -/

theorem runWorkers_perm (ws : List (List Char)) (hws : ∀ w ∈ ws, upperWord w) (t : TrieNode)
    (ht : t.wf = true) (workers : Nat) (hN : 1 ≤ workers) (order : List Nat)
    (horder : order.Perm (List.range workers)) :
    runWorkers workers ws t order = insertAll t ws := by
  rw [runWorkers_eq workers ws hws order t]
  have hp := horder.flatMap_right (fun i =>
    (ws.drop (rangeStart workers ws.length i)).take
      (rangeEnd workers ws.length i - rangeStart workers ws.length i))
  rw [ranges_cover workers hN ws] at hp
  exact (insertAll_perm hp.symm hws t ht).symm

theorem enumeration_of_sorted (ws : List (List Char)) (hws : ∀ w ∈ ws, upperWord w)
    (hs : ws.Pairwise (List.Lex (fun a b : Char => a < b))) :
    (insertAll TrieNode.new ws).trie.suggestionsRec [] [] = ws := by
  obtain ⟨r, hr, hmem, hnd, hsr⟩ :=
    suggestions_spec ws [] hws (fun c hc => absurd hc (List.not_mem_nil c))
  have h2 := printAutoSuggestions_of_walk (insertAll TrieNode.new ws).trie _ [] rfl
  rw [hr] at h2
  rw [← Outcome.returns.inj h2]
  have hperm : r.Perm ws :=
    (List.perm_ext_iff_of_nodup hnd (nodup_of_lex_sorted hs)).2
      (fun w => by rw [hmem w]; exact ⟨fun h => h.1, fun h => ⟨h, List.nil_prefix⟩⟩)
  have hs2 : ws.Sorted (· < ·) := hs
  exact List.eq_of_perm_of_sorted hperm hsr hs2


theorem enumeration_corpus (order : List Nat) (horder : order.Perm (List.range numThreadsTmp)) :
    (runWorkers numThreadsTmp corpus TrieNode.new order).outOfRange = none ∧
    (runWorkers numThreadsTmp corpus TrieNode.new order).trie.suggestionsRec [] [] = corpus := by
  rw [runWorkers_perm corpus upperWord_of_mem_corpus TrieNode.new TrieNode.wf_new numThreadsTmp
    (by decide) order horder]
  exact ⟨(wf_insertAll corpus upperWord_of_mem_corpus).2,
    enumeration_of_sorted corpus upperWord_of_mem_corpus sorted_corpus⟩

/-- C11: the corpus generated in `main` is the list of all 26^4 = 456,976
four-letter words over A-Z, without repeats and in ascending lexicographic
order, AAAA first and ZZZZ last; after inserting it through the 4 index ranges,
taken in any order, the enumeration for the empty prefix (`suggestionsRec`
from the root, `printAutoSuggestions("")`, `onSearchTextChanged("")`) returns
a list equal to the corpus. -/
theorem corpus_enumeration (order : List Nat)
    (horder : order.Perm (List.range numThreadsTmp)) :
    corpus.length = 456976 ∧ 26 ^ 4 = 456976 ∧
    (∀ w, w ∈ corpus ↔ (w.length = 4 ∧ upperWord w)) ∧
    corpus.Nodup ∧ corpus.Sorted (· < ·) ∧
    corpus.head? = some "AAAA".toList ∧ corpus.getLast? = some "ZZZZ".toList ∧
    (runWorkers numThreadsTmp corpus TrieNode.new order).outOfRange = none ∧
    (runWorkers numThreadsTmp corpus TrieNode.new order).trie.suggestionsRec [] [] = corpus ∧
    (runWorkers numThreadsTmp corpus TrieNode.new order).trie.printAutoSuggestions []
      = .returns corpus ∧
    onSearchTextChanged (runWorkers numThreadsTmp corpus TrieNode.new order).trie []
      = .returns corpus := by
  have he := enumeration_corpus order horder
  refine ⟨length_corpus, by decide, ?_, nodup_of_lex_sorted sorted_corpus, sorted_corpus,
    ?_, ?_, he.1, he.2, ?_, ?_⟩
  · intro w
    rw [corpus_eq_wordsOver]
    exact mem_wordsOver 4 w
  · rw [List.head?_eq_getElem?, getElem?_corpus 0 (by decide)]
    decide
  · rw [List.getLast?_eq_getElem?, length_corpus, getElem?_corpus _ (by decide)]
    decide
  · rw [printAutoSuggestions_of_walk _ _ [] rfl, he.2]
  · show Outcome.returns _ = _
    rw [he.2]

theorem corpus_enumeration_witness :
    (runWorkers numThreadsTmp corpus TrieNode.new [3, 1, 0, 2]).trie.suggestionsRec [] []
      = corpus :=
  (corpus_enumeration [3, 1, 0, 2] (by decide)).2.2.2.2.2.2.2.2.1

theorem descend_new_cons (j : Nat) (q : List Nat) : descend TrieNode.new (j :: q) = none := by
  simp [descend, TrieNode.new, TrieNode.children, Children.get_empty]

theorem isSome_descend_new (p : List Nat) : (descend TrieNode.new p).isSome = true ↔ p = [] := by
  cases p with
  | nil => simp [descend]
  | cons j q => simp [descend_new_cons]

theorem isSome_descend_insertPath : ∀ (w p : List Nat) (t : TrieNode), t.wf = true →
    (∀ i ∈ w, i < 26) →
    ((descend (insertPath t w) p).isSome = true ↔ (p <+: w ∨ (descend t p).isSome = true))
  | [], p, .mk e cs, _, _ => by
    cases p with
    | nil => simp [descend]
    | cons j q => simp [insertPath, descend, TrieNode.children]
  | i :: r, [], .mk e cs, _, _ => by simp [descend]
  | i :: r, j :: q, .mk e cs, h, hw => by
    have hcs := TrieNode.wf_mk h
    have hi : i < cs.size := by rw [hcs.1]; exact hw i (List.mem_cons_self _ _)
    have ih := isSome_descend_insertPath r q _ (wf_getD hcs.2 i)
      (fun k hk => hw k (List.mem_cons_of_mem _ hk))
    by_cases hji : j = i
    · subst hji
      simp only [insertPath, descend, TrieNode.children, Children.get_set_eq cs j _ hi,
        List.cons_prefix_cons, true_and]
      rw [ih]
      cases hg : cs.get j with
      | none =>
        simp only [Option.getD_none, isSome_descend_new, Option.isSome_none]
        constructor
        · rintro (h1 | rfl)
          · exact Or.inl h1
          · exact Or.inl List.nil_prefix
        · rintro (h1 | h1)
          · exact Or.inl h1
          · exact absurd h1 (by simp)
      | some c => simp
    · simp only [insertPath, descend, TrieNode.children,
        Children.get_set_ne cs i j _ (fun e => hji e.symm), List.cons_prefix_cons]
      simp [hji]

theorem isSome_descend_foldl : ∀ (ps : List (List Nat)) (p : List Nat) (t : TrieNode),
    t.wf = true → (∀ w ∈ ps, ∀ i ∈ w, i < 26) →
    ((descend (ps.foldl insertPath t) p).isSome = true ↔
      ((∃ w ∈ ps, p <+: w) ∨ (descend t p).isSome = true))
  | [], p, t, _, _ => by simp
  | w :: ps, p, t, h, hp => by
    rw [List.foldl_cons, isSome_descend_foldl ps p _ (wf_insertPath w t h)
      (fun r hr => hp r (List.mem_cons_of_mem _ hr)),
      isSome_descend_insertPath w p t h (hp w (List.mem_cons_self _ _))]
    simp only [List.mem_cons, exists_eq_or_imp]
    constructor
    · rintro (h1 | h1 | h1)
      · exact Or.inl (Or.inr h1)
      · exact Or.inl (Or.inl h1)
      · exact Or.inr h1
    · rintro ((h1 | h1) | h1)
      · exact Or.inr (Or.inl h1)
      · exact Or.inl h1
      · exact Or.inr (Or.inr h1)

theorem isSome_descend_insertAll (ws : List (List Char)) (h : ∀ w ∈ ws, upperWord w)
    (p : List Nat) :
    (descend (insertAll TrieNode.new ws).trie p).isSome = true ↔
      (p = [] ∨ ∃ w ∈ ws, p <+: slots w) := by
  rw [insertAll_eq ws _ (fun w hw => inAlphabet_of_upperWord (h w hw))]
  simp only []
  rw [isSome_descend_foldl _ p _ TrieNode.wf_new, isSome_descend_new]
  · simp only [List.mem_map, exists_exists_and_eq_and]
    exact Or.comm
  · intro q hq
    obtain ⟨w, hw, rfl⟩ := List.mem_map.1 hq
    exact slots_lt (inAlphabet_of_upperWord (h w hw))

theorem descend_append : ∀ (a b : List Nat) (t : TrieNode),
    descend t (a ++ b) = (descend t a).bind (fun n => descend n b)
  | [], _, _ => rfl
  | i :: a, b, t => by
    rw [List.cons_append]
    simp only [descend]
    cases hg : t.children.get i with
    | none => rfl
    | some c => exact descend_append a b c

theorem Children.isLastNode_eq_false : ∀ (cs : Children),
    cs.isLastNode = false ↔ ∃ i c, cs.get i = some c
  | .nil => by simp [Children.isLastNode, Children.get]
  | .null rest => by
    rw [Children.isLastNode, Children.isLastNode_eq_false rest]
    constructor
    · rintro ⟨i, c, h⟩
      exact ⟨i + 1, c, by simpa [Children.get] using h⟩
    · rintro ⟨i, c, h⟩
      cases i with
      | zero => simp [Children.get] at h
      | succ i => exact ⟨i, c, by simpa [Children.get] using h⟩
  | .node d rest => by
    simp only [Children.isLastNode, true_iff]
    exact ⟨0, d, rfl⟩


/-! ## Nodes, words and extensions on a built trie -/

theorem prefix_slots_iff (ws : List (List Char)) (hws : ∀ w ∈ ws, upperWord w) (q : List Char)
    (hq : ∀ c ∈ q, isLetter c) :
    (∃ w ∈ ws, slots q <+: slots w) ↔ ∃ w ∈ ws, upperCase q <+: w := by
  constructor
  · rintro ⟨w, hw, hpre⟩
    refine ⟨w, hw, ?_⟩
    have := hpre.map QChar
    rw [← letters_slots_letter q hq]
    have h2 := letters_slots w (hws w hw)
    simp only [letters] at h2 ⊢
    rw [h2] at this
    exact this
  · rintro ⟨w, hw, hpre⟩
    refine ⟨w, hw, ?_⟩
    have := hpre.map slot
    rw [← slots_upperCase q hq]
    exact this

theorem node_iff (ws : List (List Char)) (hws : ∀ w ∈ ws, upperWord w) (q : List Char)
    (hq : ∀ c ∈ q, isLetter c) :
    (descend (insertAll TrieNode.new ws).trie (slots q)).isSome = true ↔
      (q = [] ∨ ∃ w ∈ ws, upperCase q <+: w) := by
  rw [isSome_descend_insertAll ws hws, prefix_slots_iff ws hws q hq]
  have : slots q = [] ↔ q = [] := by simp [slots]
  rw [this]

theorem word_iff (ws : List (List Char)) (hws : ∀ w ∈ ws, upperWord w) (q : List Char)
    (hq : ∀ c ∈ q, isLetter c) :
    lookup (insertAll TrieNode.new ws).trie (slots q) = true ↔ upperCase q ∈ ws := by
  rw [lookup_insertAll ws hws, decide_eq_true_iff, List.mem_map]
  constructor
  · rintro ⟨w, hw, hsl⟩
    have : w = upperCase q := by
      rw [← letters_slots w (hws w hw), hsl, letters_slots_letter q hq]
    rw [← this]
    exact hw
  · intro h
    exact ⟨_, h, slots_upperCase q hq⟩

theorem child_iff (ws : List (List Char)) (hws : ∀ w ∈ ws, upperWord w) (q : List Char)
    (hq : ∀ c ∈ q, isLetter c) (n : TrieNode)
    (hn : descend (insertAll TrieNode.new ws).trie (slots q) = some n) :
    n.isLastNode = false ↔ ∃ w ∈ ws, upperCase q <+: w ∧ w ≠ upperCase q := by
  have hch : ∀ i, descend (insertAll TrieNode.new ws).trie (slots q ++ [i])
      = n.children.get i := by
    intro i
    rw [descend_append, hn]
    show (match n.children.get i with
      | none => none
      | some child => descend child []) = _
    cases n.children.get i <;> rfl
  rw [TrieNode.isLastNode, Children.isLastNode_eq_false]
  constructor
  · rintro ⟨i, c, hic⟩
    have h1 : (descend (insertAll TrieNode.new ws).trie (slots q ++ [i])).isSome = true := by
      rw [hch i, hic]; rfl
    rcases (isSome_descend_insertAll ws hws _).1 h1 with h2 | ⟨w, hw, s, hs⟩
    · simp at h2
    · refine ⟨w, hw, ?_, ?_⟩
      · have h3 : slots q <+: slots w := ⟨[i] ++ s, by rw [← hs, List.append_assoc]⟩
        obtain ⟨v, hv, hpre⟩ := (prefix_slots_iff [w] (fun x hx => by
          rw [List.mem_singleton.1 hx]; exact hws w hw) q hq).1 ⟨w, List.mem_singleton_self w, h3⟩
        rw [List.mem_singleton.1 hv] at hpre
        exact hpre
      · intro heq
        have h4 : (slots w).length = (slots q).length := by
          rw [heq, slots_upperCase q hq]
        rw [← hs] at h4
        simp at h4
  · rintro ⟨w, hw, ⟨s, hs⟩, hne⟩
    cases s with
    | nil => exact absurd (by rw [← hs, List.append_nil]) hne
    | cons c s =>
      have h1 : slots q ++ [slot c] <+: slots w :=
        ⟨slots s, by
          rw [← hs, slots_append, slots_upperCase q hq, slots_cons, List.append_assoc]
          rfl⟩
      have h2 := (isSome_descend_insertAll ws hws _).2 (Or.inr ⟨w, hw, h1⟩)
      rw [hch (slot c)] at h2
      cases hg : n.children.get (slot c) with
      | none => rw [hg] at h2; exact absurd h2 (by simp)
      | some d => exact ⟨slot c, d, hg⟩

theorem inAlphabet_of_walk : ∀ (p : List Char) (t n : TrieNode),
    t.walk p = .returns (some n) → ∀ c ∈ p, inAlphabet c
  | [], _, _, _ => fun c hc => absurd hc (List.not_mem_nil c)
  | c :: rest, t, n, h => by
    simp only [TrieNode.walk] at h
    split at h
    · next hc =>
      have hc1 : inAlphabet (toLatin1 c) := hc
      have hc2 : inAlphabet c := by
        unfold toLatin1 at hc1
        split at hc1
        · exact hc1
        · have h0 := (inAlphabet_iff _).1 hc1
          have h1 : ¬ ((65 ≤ (Char.ofNat 0).toNat ∧ (Char.ofNat 0).toNat ≤ 90) ∨
              (97 ≤ (Char.ofNat 0).toNat ∧ (Char.ofNat 0).toNat ≤ 122)) := by decide
          exact absurd h0 h1
      cases hg : t.children.get (CHAR_TO_INDEX (toLatin1 c)).toNat with
      | none => rw [hg] at h; simp at h
      | some d =>
        rw [hg] at h
        have ih := inAlphabet_of_walk rest d n h
        intro x hx
        rcases List.mem_cons.1 hx with rfl | hx
        · exact hc2
        · exact ih x hx
    · exact absurd h (by simp)

/-- C13 (as amended): on a trie obtained from the empty trie by inserting
words over A-Z, for every prefix `p` whose walk from the root succeeds, the
node reached has at least one child or has `isWordEnd = true`, provided at
least one word was inserted or `p` is not empty. -/
theorem reached_node_not_bare (ws : List (List Char)) (hws : ∀ w ∈ ws, upperWord w)
    (p : List Char) (n : TrieNode)
    (hwalk : (insertAll TrieNode.new ws).trie.walk p = .returns (some n))
    (hne : ws ≠ [] ∨ p ≠ []) :
    n.isLastNode = false ∨ n.isWordEnd = true := by
  have hv := inAlphabet_of_walk p _ n hwalk
  have hp : ∀ c ∈ p, isLetter c := fun c hc => (inAlphabet_iff c).1 (hv c hc)
  rw [walk_eq_descend p _ hv] at hwalk
  have hd : descend (insertAll TrieNode.new ws).trie (slots p) = some n := by
    simpa using hwalk
  have hP : ∃ w ∈ ws, upperCase p <+: w := by
    rcases (node_iff ws hws p hp).1 (by rw [hd]; rfl) with h1 | h1
    · subst h1
      rcases hne with h2 | h2
      · cases ws with
        | nil => exact absurd rfl h2
        | cons w ws => exact ⟨w, List.mem_cons_self _ _, List.nil_prefix⟩
      · exact absurd rfl h2
    · exact h1
  obtain ⟨w, hw, hpre⟩ := hP
  by_cases heq : w = upperCase p
  · right
    have h1 := (word_iff ws hws p hp).2 (heq ▸ hw)
    unfold lookup at h1
    rw [hd] at h1
    exact h1
  · left
    exact (child_iff ws hws p hp n hd).2 ⟨w, hw, hpre, heq⟩

theorem reached_node_not_bare_witness :
    (TrieNode.new.insert []).trie.isLastNode = false ∨
      (TrieNode.new.insert []).trie.isWordEnd = true :=
  reached_node_not_bare [ "CAT".toList ] (by decide) "CAT".toList (TrieNode.new.insert []).trie
    (by decide) (by decide)

/-- C13 (counterexample): on the empty trie the walk along the empty prefix
succeeds and reaches the root, which has no child and is not a word end;
`printAutoSuggestions` then takes its last `return wordList`. -/
theorem reached_node_bare_counterexample :
    (insertAll TrieNode.new []).trie.walk [] = .returns (some TrieNode.new) ∧
    TrieNode.new.isLastNode = true ∧ TrieNode.new.isWordEnd = false ∧
    (insertAll TrieNode.new []).trie.printAutoSuggestions [] = .returns [] := by
  decide


/-! ## Counting the nodes -/

mutual
theorem length_nodePaths : ∀ (t : TrieNode), (nodePaths t).length = t.nodeCount
  | .mk e cs => by
    rw [nodePaths, TrieNode.nodeCount, List.length_cons, length_nodePathsFrom cs 0, Nat.add_comm]
theorem length_nodePathsFrom : ∀ (cs : Children) (i : Nat),
    (nodePathsFrom cs i).length = cs.nodeCount
  | .nil, _ => rfl
  | .null rest, i => by
    rw [nodePathsFrom, Children.nodeCount, length_nodePathsFrom rest (i + 1)]
  | .node c rest, i => by
    rw [nodePathsFrom, Children.nodeCount, List.length_append, List.length_map,
      length_nodePaths c, length_nodePathsFrom rest (i + 1)]
end

theorem mem_nodePathsFrom : ∀ (cs : Children) (i : Nat) (p : List Nat),
    p ∈ nodePathsFrom cs i ↔ ∃ k c r, cs.get k = some c ∧ r ∈ nodePaths c ∧ p = (i + k) :: r
  | .nil, i, p => by simp [nodePathsFrom, Children.get]
  | .null rest, i, p => by
    rw [nodePathsFrom, mem_nodePathsFrom rest (i + 1) p]
    constructor
    · rintro ⟨k, c, r, hg, hr, rfl⟩
      exact ⟨k + 1, c, r, by simpa [Children.get] using hg, hr,
        by rw [Nat.add_right_comm, Nat.add_assoc]⟩
    · rintro ⟨k, c, r, hg, hr, rfl⟩
      cases k with
      | zero => simp [Children.get] at hg
      | succ k =>
        exact ⟨k, c, r, by simpa [Children.get] using hg, hr,
          by rw [Nat.add_right_comm, Nat.add_assoc]⟩
  | .node d rest, i, p => by
    rw [nodePathsFrom, List.mem_append, mem_nodePathsFrom rest (i + 1) p]
    constructor
    · rintro (h | ⟨k, c, r, hg, hr, rfl⟩)
      · obtain ⟨r, hr, rfl⟩ := List.mem_map.1 h
        exact ⟨0, d, r, rfl, hr, rfl⟩
      · exact ⟨k + 1, c, r, by simpa [Children.get] using hg, hr,
          by rw [Nat.add_right_comm, Nat.add_assoc]⟩
    · rintro ⟨k, c, r, hg, hr, rfl⟩
      cases k with
      | zero =>
        simp [Children.get] at hg
        subst hg
        exact Or.inl (List.mem_map.2 ⟨r, hr, rfl⟩)
      | succ k =>
        exact Or.inr ⟨k, c, r, by simpa [Children.get] using hg, hr,
          by rw [Nat.add_right_comm, Nat.add_assoc]⟩

theorem mem_nodePaths : ∀ (p : List Nat) (t : TrieNode),
    p ∈ nodePaths t ↔ (descend t p).isSome = true
  | [], .mk e cs => by simp [nodePaths, descend]
  | i :: r, .mk e cs => by
    rw [nodePaths, List.mem_cons, mem_nodePathsFrom]
    simp only [descend, TrieNode.children, reduceCtorEq, false_or]
    constructor
    · rintro ⟨k, c, r', hg, hr, heq⟩
      simp only [Nat.zero_add, List.cons.injEq] at heq
      obtain ⟨rfl, rfl⟩ := heq
      rw [hg]
      exact (mem_nodePaths r c).1 hr
    · intro h
      cases hg : cs.get i with
      | none => rw [hg] at h; exact absurd h (by simp)
      | some c =>
        rw [hg] at h
        exact ⟨i, c, r, hg, (mem_nodePaths r c).2 h, by simp⟩

theorem descend_lt : ∀ (p : List Nat) (t : TrieNode), t.wf = true →
    (descend t p).isSome = true → ∀ i ∈ p, i < 26
  | [], _, _, _ => by simp
  | j :: r, .mk e cs, hw, h => by
    have hcs := TrieNode.wf_mk hw
    simp only [descend, TrieNode.children] at h
    cases hg : cs.get j with
    | none => rw [hg] at h; exact absurd h (by simp)
    | some c =>
      rw [hg] at h
      have hj := Children.get_lt_size cs j c hg
      have ih := descend_lt r c (Children.wf_get cs j c hcs.2 hg) h
      intro i hi
      rcases List.mem_cons.1 hi with rfl | hi
      · omega
      · exact ih i hi

mutual
theorem nodePaths_sorted : ∀ (t : TrieNode),
    (nodePaths t).Pairwise (List.Lex (fun a b : Nat => a < b))
  | .mk e cs => by
    rw [nodePaths, List.pairwise_cons]
    refine ⟨?_, nodePathsFrom_sorted cs 0⟩
    intro b hb
    obtain ⟨k, c, r, _, _, rfl⟩ := (mem_nodePathsFrom cs 0 b).1 hb
    exact List.Lex.nil
theorem nodePathsFrom_sorted : ∀ (cs : Children) (i : Nat),
    (nodePathsFrom cs i).Pairwise (List.Lex (fun a b : Nat => a < b))
  | .nil, _ => by simp [nodePathsFrom]
  | .null rest, i => by
    rw [nodePathsFrom]
    exact nodePathsFrom_sorted rest (i + 1)
  | .node c rest, i => by
    rw [nodePathsFrom, List.pairwise_append]
    refine ⟨?_, nodePathsFrom_sorted rest (i + 1), ?_⟩
    · rw [List.pairwise_map]
      exact (nodePaths_sorted c).imp (fun h => List.Lex.cons h)
    · intro a ha b hb
      obtain ⟨r, _, rfl⟩ := List.mem_map.1 ha
      obtain ⟨k, d, r', _, _, rfl⟩ := (mem_nodePathsFrom rest (i + 1) b).1 hb
      exact List.Lex.rel (by omega)
end

theorem upperCase_of_upperWord (x : List Char) (h : upperWord x) : upperCase x = x := by
  rw [← letters_slots_letter x (fun c hc => Or.inl (h c hc)), letters_slots x h]

theorem nodeCount_insertAll (ws : List (List Char)) (hws : ∀ w ∈ ws, upperWord w) :
    (insertAll TrieNode.new ws).trie.nodeCount
      = (([] :: ws.flatMap List.inits).dedup).length := by
  have hwf := (wf_insertAll ws hws).1
  rw [← length_nodePaths, ← List.length_map (nodePaths _) letters]
  apply List.Perm.length_eq
  apply (List.perm_ext_iff_of_nodup ?_ (List.nodup_dedup _)).2
  · intro x
    rw [List.mem_dedup, List.mem_cons, List.mem_flatMap, List.mem_map]
    simp only [List.mem_inits]
    constructor
    · rintro ⟨p, hp, rfl⟩
      rcases (isSome_descend_insertAll ws hws p).1 ((mem_nodePaths p _).1 hp) with h1 | ⟨w, hw, h1⟩
      · subst h1; exact Or.inl rfl
      · right
        refine ⟨w, hw, ?_⟩
        have h2 := h1.map QChar
        have h3 := letters_slots w (hws w hw)
        simp only [letters] at h3 ⊢
        rw [h3] at h2
        exact h2
    · rintro (rfl | ⟨w, hw, hpre⟩)
      · exact ⟨[], (mem_nodePaths [] _).2 rfl, rfl⟩
      · have hx : upperWord x := fun c hc => hws w hw c (hpre.subset hc)
        refine ⟨slots x, (mem_nodePaths _ _).2 ?_, letters_slots x hx⟩
        exact (isSome_descend_insertAll ws hws _).2 (Or.inr ⟨w, hw, hpre.map slot⟩)
  · refine nodup_of_lex_sorted ?_
    rw [List.pairwise_map]
    refine (nodePaths_sorted _).imp_of_mem ?_
    intro a b _ hb hab
    exact lex_letters hab (descend_lt b _ hwf ((mem_nodePaths b _).1 hb))

/-- C14: nodes are created once per distinct prefix and never removed.  On
the trie built by inserting a list of words over A-Z into an empty trie, the
walk along a string over A-Z reaches a node exactly when the string is the
empty prefix (the root) or a prefix of an inserted word; the node count equals
the number of distinct prefixes of the inserted words, the empty prefix of the
root included; and for every trie (26 slots per node) a path that reaches a
node before an insert still reaches a node after it. -/
theorem nodes_are_prefixes (ws : List (List Char)) (hws : ∀ w ∈ ws, upperWord w)
    (t : TrieNode) (ht : t.wf = true) (w : List Char) (hw : upperWord w) :
    (∀ x, upperWord x →
      ((∃ n, (insertAll TrieNode.new ws).trie.walk x = .returns (some n)) ↔
        (x = [] ∨ ∃ v ∈ ws, x <+: v))) ∧
    (insertAll TrieNode.new ws).trie.nodeCount
      = (([] :: ws.flatMap List.inits).dedup).length ∧
    (∀ x n, t.walk x = .returns (some n) →
      ∃ n', (t.insert w).trie.walk x = .returns (some n')) := by
  refine ⟨?_, nodeCount_insertAll ws hws, ?_⟩
  · intro x hx
    have hl : ∀ c ∈ x, isLetter c := fun c hc => Or.inl (hx c hc)
    rw [walk_eq_descend x _ (inAlphabet_of_upperWord hx)]
    have h1 := node_iff ws hws x hl
    rw [upperCase_of_upperWord x hx] at h1
    rw [← h1]
    cases descend (insertAll TrieNode.new ws).trie (slots x) with
    | none => simp
    | some n => simp
  · intro x n hx
    have hv := inAlphabet_of_walk x t n hx
    have hw2 := inAlphabet_of_upperWord hw
    rw [walk_eq_descend x t hv] at hx
    have h1 : (descend (insertPath t (slots w)) (slots x)).isSome = true :=
      (isSome_descend_insertPath _ _ t ht (slots_lt hw2)).2
        (Or.inr (by rw [Outcome.returns.inj hx]; rfl))
    rw [insert_eq_insertPath w t hw2, walk_eq_descend x _ hv]
    cases hd : descend (insertPath t (slots w)) (slots x) with
    | none => rw [hd] at h1; exact absurd h1 (by simp)
    | some n' => exact ⟨n', rfl⟩

theorem nodes_are_prefixes_witness :
    (insertAll TrieNode.new [ "CAT".toList, "CAR".toList, "CAT".toList ]).trie.nodeCount
      = (([] :: [ "CAT".toList, "CAR".toList, "CAT".toList ].flatMap List.inits).dedup).length :=
  (nodes_are_prefixes [ "CAT".toList, "CAR".toList, "CAT".toList ] (by decide)
    TrieNode.new (by decide) "DOG".toList (by decide)).2.1


/-! ## The return value of the console printAutoSuggestions -/

theorem Console.crawl_eq_descend : ∀ (q : List Char) (t : TrieNode), (∀ c ∈ q, inAlphabet c) →
    Console.crawl t q = .returns (descend t (slots q))
  | [], _, _ => rfl
  | c :: rest, t, h => by
    have hc2 : 0 ≤ CHAR_TO_INDEX c ∧ CHAR_TO_INDEX c < 26 := h c (List.mem_cons_self _ _)
    simp only [Console.crawl, slots_cons, descend]
    rw [if_pos hc2]
    show (match t.children.get (slot c) with
      | none => Outcome.returns none
      | some child => Console.crawl child rest) = _
    cases hg : t.children.get (slot c) with
    | none => rfl
    | some child =>
      exact Console.crawl_eq_descend rest child (fun d hd => h d (List.mem_cons_of_mem _ hd))

/-- C15 (as amended): on a trie built by inserting words over A-Z, for every
query of ASCII letters, provided at least one word was inserted or the query
is not empty, the console `printAutoSuggestions` returns 0, -1 or 1: 0 exactly
when no stored word starts with the upper-cased query, -1 exactly when the
upper-cased query is a stored word that no other stored word extends, and 1
exactly when some stored word extends it properly; so the caller's test
`comp == 0` holds exactly when nothing matches. -/
theorem Console.return_code (ws : List (List Char)) (hws : ∀ w ∈ ws, upperWord w)
    (q : List Char) (hq : ∀ c ∈ q, isLetter c) (hne : ws ≠ [] ∨ q ≠ []) :
    ∃ code, (Console.printAutoSuggestions (insertAll TrieNode.new ws).trie q).exit
        = .returned code ∧
      (code = 0 ∨ code = -1 ∨ code = 1) ∧
      (code = 0 ↔ ¬ ∃ w ∈ ws, upperCase q <+: w) ∧
      (code = -1 ↔ (upperCase q ∈ ws ∧ ∀ w ∈ ws, upperCase q <+: w → w = upperCase q)) ∧
      (code = 1 ↔ ∃ w ∈ ws, upperCase q <+: w ∧ w ≠ upperCase q) := by
  have hv : ∀ c ∈ q, inAlphabet c := fun c hc => inAlphabet_of_isLetter (hq c hc)
  have hcrawl := Console.crawl_eq_descend q (insertAll TrieNode.new ws).trie hv
  have hnode := node_iff ws hws q hq
  have hP : (descend (insertAll TrieNode.new ws).trie (slots q)).isSome = true ↔
      ∃ w ∈ ws, upperCase q <+: w := by
    rw [hnode]
    constructor
    · rintro (h1 | h1)
      · subst h1
        rcases hne with h2 | h2
        · cases ws with
          | nil => exact absurd rfl h2
          | cons w ws => exact ⟨w, List.mem_cons_self _ _, List.nil_prefix⟩
        · exact absurd rfl h2
      · exact h1
    · exact Or.inr
  cases hd : descend (insertAll TrieNode.new ws).trie (slots q) with
  | none =>
    rw [hd] at hcrawl hP
    have hnP : ¬ ∃ w ∈ ws, upperCase q <+: w := fun h => absurd (hP.2 h) (by simp)
    refine ⟨0, ?_, Or.inl rfl, ?_, ?_, ?_⟩
    · unfold Console.printAutoSuggestions
      rw [hcrawl]
    · exact ⟨fun _ => hnP, fun _ => rfl⟩
    · constructor
      · intro h; exact absurd h (by decide)
      · rintro ⟨h1, _⟩
        exact absurd ⟨_, h1, List.prefix_refl _⟩ hnP
    · constructor
      · intro h; exact absurd h (by decide)
      · rintro ⟨w, hw, h1, _⟩
        exact absurd ⟨w, hw, h1⟩ hnP
  | some n =>
    rw [hd] at hcrawl hP
    have hPt : ∃ w ∈ ws, upperCase q <+: w := hP.1 rfl
    have hword : n.isWordEnd = true ↔ upperCase q ∈ ws := by
      rw [← word_iff ws hws q hq]
      unfold lookup
      rw [hd]
    have hchild := child_iff ws hws q hq n hd
    cases hl : n.isLastNode with
    | false =>
      have hE := hchild.1 hl
      refine ⟨1, ?_, Or.inr (Or.inr rfl), ?_, ?_, ?_⟩
      · unfold Console.printAutoSuggestions
        rw [hcrawl]
        simp [hl]
      · exact ⟨fun h => absurd h (by decide), fun h => absurd hPt h⟩
      · constructor
        · intro h; exact absurd h (by decide)
        · rintro ⟨_, h2⟩
          obtain ⟨w, hw, h3, h4⟩ := hE
          exact absurd (h2 w hw h3) h4
      · exact ⟨fun _ => hE, fun _ => rfl⟩
    | true =>
      have hnE : ¬ ∃ w ∈ ws, upperCase q <+: w ∧ w ≠ upperCase q := by
        intro h
        have := hchild.2 h
        rw [hl] at this
        exact absurd this (by simp)
      have hall : ∀ w ∈ ws, upperCase q <+: w → w = upperCase q := by
        intro w hw h1
        by_contra h2
        exact hnE ⟨w, hw, h1, h2⟩
      have hin : upperCase q ∈ ws := by
        obtain ⟨w, hw, h1⟩ := hPt
        rw [← hall w hw h1]
        exact hw
      refine ⟨-1, ?_, Or.inr (Or.inl rfl), ?_, ?_, ?_⟩
      · unfold Console.printAutoSuggestions
        rw [hcrawl]
        simp [hl, hword.2 hin]
      · exact ⟨fun h => absurd h (by decide), fun h => absurd hPt h⟩
      · exact ⟨fun _ => ⟨hin, hall⟩, fun _ => rfl⟩
      · exact ⟨fun h => absurd h (by decide), fun h => absurd h hnE⟩

theorem Console.return_code_witness :
    ∃ code, (Console.printAutoSuggestions
        (insertAll TrieNode.new [ "CAT".toList, "CAR".toList ]).trie "ca".toList).exit
        = .returned code ∧
      (code = 0 ∨ code = -1 ∨ code = 1) ∧
      (code = 0 ↔ ¬ ∃ w ∈ [ "CAT".toList, "CAR".toList ], upperCase "ca".toList <+: w) ∧
      (code = -1 ↔ (upperCase "ca".toList ∈ [ "CAT".toList, "CAR".toList ] ∧
        ∀ w ∈ [ "CAT".toList, "CAR".toList ], upperCase "ca".toList <+: w →
          w = upperCase "ca".toList)) ∧
      (code = 1 ↔ ∃ w ∈ [ "CAT".toList, "CAR".toList ],
        upperCase "ca".toList <+: w ∧ w ≠ upperCase "ca".toList) :=
  Console.return_code [ "CAT".toList, "CAR".toList ] (by decide) "ca".toList (by decide)
    (by decide)

/-- C15 (counterexample): on the trie of CAT the query `ca`, which no stored
word has as a prefix, makes the console `printAutoSuggestions` return 1 and
print `caT`; and on the empty trie the empty query ends the function without
a `return` statement. -/
theorem Console.return_code_counterexample :
    (¬ ∃ w ∈ [ "CAT".toList ], "ca".toList <+: w) ∧
    Console.printAutoSuggestions (insertAll TrieNode.new [ "CAT".toList ]).trie "ca".toList
      = ⟨[ "caT".toList ], .returned 1⟩ ∧
    Console.printAutoSuggestions (insertAll TrieNode.new []).trie [] = ⟨[], .noReturn⟩ := by
  decide


/-! ## The slots two workers both address -/

/-- C12: in the build of `main` the workers are not confined to disjoint
subtrees.  Word 114243, GMZZ, is the last word of range 0 and word 114244,
GNAA, the first word of range 1; `insert` of either tests slot 6 (`G`) of the
root's `children[]`, which is `nullptr` in the fresh root, so one of the two
workers also writes it. -/
theorem workers_share_slot :
    rangeStart numThreadsTmp corpus.length 0 ≤ 114243 ∧
    114243 < rangeEnd numThreadsTmp corpus.length 0 ∧
    rangeStart numThreadsTmp corpus.length 1 ≤ 114244 ∧
    114244 < rangeEnd numThreadsTmp corpus.length 1 ∧
    corpus[114243]? = some "GMZZ".toList ∧
    corpus[114244]? = some "GNAA".toList ∧
    (([] : List Nat), (6 : Int)) ∈ insertAccesses [] "GMZZ".toList ∧
    (([] : List Nat), (6 : Int)) ∈ insertAccesses [] "GNAA".toList ∧
    TrieNode.new.children.get 6 = none := by
  rw [length_corpus, getElem?_corpus 114243 (by decide), getElem?_corpus 114244 (by decide)]
  decide

end ParallelDictSeek
